import Mathlib

/-!
A shallow embedding of the 1BRC aggregation pipeline (`src/main.cpp`) and
proofs about its components: the segmenter `split_input`, the line reader
`Reader::getline`, the fast value parser `get_temperature`, the running
`Stats` accumulator, the merger `merge_results`, the reporter
`dump_results`, the `NUM_THREADS` configuration lookup and the `main`
entry point.

Bytes are modelled as natural numbers (`'\n' = 10`, `';' = 59`,
`'-' = 45`, `'0' = 48`, `'.' = 46`).  The memory-mapped input file is a
`List Nat`.  `size_t` arithmetic that can wrap (`npos + 1`, `end - start`)
is modelled explicitly modulo `2 ^ 64`.
-/

namespace OneBRC

/-- A byte of the mapped input, `data[i]`.  Reads past the end of the view
return 0, modelling the zero-filled tail of the final page of a read-only
memory mapping, which is where the code's slightly-out-of-range reads in
`split_input` land for any file whose size is not a multiple of the chunk
size.  (Zero is never a line terminator, which is all the code looks at.) -/
def byteAt (data : List Nat) (i : Nat) : Nat := data.getD i 0

/-- `std::string_view::find(c, pos)`: the index of the first occurrence of
byte `c` at a position `≥ pos`, or `none` (representing `npos`). -/
def svFind (c : Nat) : List Nat → Nat → Option Nat
  | [], _ => none
  | b :: rest, 0 => if b = c then some 0 else (svFind c rest 0).map (fun k => k + 1)
  | _ :: rest, pos + 1 => (svFind c rest pos).map (fun k => k + 1)

/-- `data.find('\n', pos) + 1` computed in `size_t` arithmetic: when `find`
fails it returns `npos = 2^64 - 1`, and `npos + 1` wraps around to `0`. -/
def findNlP1 (data : List Nat) (pos : Nat) : Nat :=
  match svFind 10 data pos with
  | some k => k + 1
  | none => 0

/-- `size_t` subtraction `a - b`, wrapping modulo `2 ^ 64`. -/
def usub (a b : Nat) : Nat := (a % 2 ^ 64 + (2 ^ 64 - b % 2 ^ 64)) % 2 ^ 64

/-- `std::string_view::substr(pos, count)`: the bytes
`[pos, pos + count)`, with `count` clamped to `size - pos`.  (`substr`
throws for `pos > size`; every call site in the embedded code is shown to
keep `pos ≤ size`, so the clamp is only ever exercised on `count`.) -/
def svSubstr (data : List Nat) (pos count : Nat) : List Nat :=
  (data.drop pos).take count

/-- The adjusted `(start, end)` pair computed by the body of the
`split_input` loop for chunk index `i` (with `size` the precomputed ceiling
chunk size): tentative boundaries `i * size` and `i * size + size`, each
moved forward to just past the next `'\n'` unless the byte immediately
before it already is one. -/
def chunkBounds (data : List Nat) (chunks size i : Nat) : Nat × Nat :=
  let start0 := i * size
  let end0 := start0 + size
  let start1 :=
    if 0 < i ∧ byteAt data (start0 - 1) ≠ 10 then findNlP1 data start0 else start0
  let end1 :=
    if i < chunks ∧ byteAt data (end0 - 1) ≠ 10 then findNlP1 data end0 else end0
  (start1, end1)

/-- The list of `(start, end)` boundary pairs produced by `split_input`
(`size = (data.size() + chunks - 1) / chunks`). -/
def split_bounds (data : List Nat) (chunks : Nat) : List (Nat × Nat) :=
  (List.range chunks).map (chunkBounds data chunks ((data.length + chunks - 1) / chunks))

/-- `split_input(data, chunks)`: the `chunks` segments, each obtained as
`data.substr(start, end - start)` with the `size_t` subtraction
`end - start` wrapping when `end < start`. -/
def split_input (data : List Nat) (chunks : Nat) : List (List Nat) :=
  (split_bounds data chunks).map (fun se => svSubstr data se.1 (usub se.2 se.1))

/-- The common boundary-adjustment computation of `split_input`: leave `p`
alone when the byte just before it is a line terminator, otherwise move it
to just past the next terminator (`find('\n', p) + 1`, wrapping to `0`
when there is none).  For `i ≥ 1` both components of `chunkBounds` are
`adj` of the tentative boundary. -/
def adj (data : List Nat) (p : Nat) : Nat :=
  if byteAt data (p - 1) ≠ 10 then findNlP1 data p else p

/-- The effective partition point between consecutive segments, used to
describe the segment contents: `0` at index `0`, the adjusted boundary
while the tentative boundary is in range, and the end of the buffer once
the tentative boundary has run past it. -/
def boundary (data : List Nat) (size i : Nat) : Nat :=
  if i = 0 then 0
  else if i * size ≤ data.length then adj data (i * size) else data.length

/-- One step of the `Reader::getline`/`process_segment` loop, bounded by a
fuel argument so that the recursion is structural: `find('\n', pos)`; if
it fails the loop stops, otherwise the line `[pos, nl)` is yielded
(terminator excluded) and the position advances to `nl + 1`.  The scan
position strictly increases and stays within the view, so the loop runs at
most `data.length + 1 - pos` times and the fuel `readLines` supplies never
runs out (`readLinesAux_congr` below makes this precise). -/
def readLinesAux (data : List Nat) : Nat → Nat → List (List Nat)
  | _, 0 => []
  | pos, fuel + 1 =>
    match svFind 10 data pos with
    | none => []
    | some nl => svSubstr data pos (nl - pos) :: readLinesAux data (nl + 1) fuel

/-- The full list of lines the `Reader::getline` loop yields from `pos`. -/
def readLines (data : List Nat) (pos : Nat) : List (List Nat) :=
  readLinesAux data pos (data.length + 1 - pos)

/-- The Line Scanner's contract in the spec's words: split the byte range
on the line terminator, excluding the terminator itself from each yielded
line, and stop as soon as no terminator is found in the remaining range
(so a final unterminated line is never yielded). -/
def specLines (l : List Nat) : List (List Nat) :=
  if h : l.any (fun b => b = 10) then
    l.takeWhile (fun b => b ≠ 10) :: specLines ((l.dropWhile (fun b => b ≠ 10)).drop 1)
  else []
termination_by l.length
decreasing_by
  simp only [List.any_eq_true, decide_eq_true_eq] at h
  obtain ⟨b, hbl, hb10⟩ := h
  have hne : l.dropWhile (fun b => decide (b ≠ 10)) ≠ [] := by
    intro hnil
    rw [List.dropWhile_eq_nil_iff] at hnil
    have := hnil b hbl
    simp [hb10] at this
  have hle := (List.dropWhile_sublist (l := l) (fun b => decide (b ≠ 10))).length_le
  have hpos : 0 < (l.dropWhile (fun b => decide (b ≠ 10))).length :=
    List.length_pos.mpr hne
  simp only [List.length_drop]
  omega

/-- Conversion of an `int` value to `std::int16_t` (modular wrap-around,
the defined behavior since C++20). -/
def toInt16 (x : Int) : Int := (x + 32768) % 65536 - 32768

/-- `get_temperature(value)`: strip an optional leading `'-'`, then decode
`"d.d"` (slice length 3) or `"dd.d"` (any other length, reading indices
0, 1 and 3) by digit arithmetic; the `int` result is converted to
`std::int16_t` on return. -/
def get_temperature (value : List Nat) : Int :=
  let sign : Int := if byteAt value 0 = 45 then -1 else 1
  let v := if byteAt value 0 = 45 then value.drop 1 else value
  if v.length = 3 then
    toInt16 (sign * (10 * (byteAt v 0 : Int) + (byteAt v 2 : Int) - 48 * 11))
  else
    toInt16 (sign * (100 * (byteAt v 0 : Int) + 10 * (byteAt v 1 : Int) + (byteAt v 3 : Int) - 48 * 111))

/-- The running per-name statistics.  In the source `min_` and `max_` are
`std::int16_t`, `sum_` is `std::int64_t` and `count_` is `std::int32_t`;
the fields are modelled as unbounded integers (no arithmetic here can
overflow the source types for any input a single process run can see:
updates are `int16` values, so `|sum_| < 2^15 · count_`). -/
structure Stats where
  min_ : Int
  max_ : Int
  sum_ : Int
  count_ : Int
deriving DecidableEq

/-- The default-constructed `Stats`: `min_ = INT16_MAX`,
`max_ = INT16_MIN`, `sum_ = 0`, `count_ = 0`. -/
def Stats.init : Stats := ⟨32767, -32768, 0, 0⟩

/-- `Stats::update(temp)`. -/
def Stats.update (s : Stats) (temp : Int) : Stats :=
  ⟨min s.min_ temp, max s.max_ temp, s.sum_ + temp, s.count_ + 1⟩

/-- `Stats::merge(o)`. -/
def Stats.merge (s o : Stats) : Stats :=
  ⟨min s.min_ o.min_, max s.max_ o.max_, s.sum_ + o.sum_, s.count_ + o.count_⟩

/-- The range constraint the `std::int16_t` typing of `min_`/`max_`
imposes on every representable `Stats` value (the part of it the merge
proofs need). -/
def Stats.Wf (s : Stats) : Prop := s.min_ ≤ 32767 ∧ -32768 ≤ s.max_

instance (s : Stats) : Decidable s.Wf :=
  inferInstanceAs (Decidable (s.min_ ≤ 32767 ∧ -32768 ≤ s.max_))

/-- A city name: its raw bytes.  Hashing (`StringHash`, FNV-1a) only
routes lookups; equality of keys is byte equality (`std::equal_to<>` over
the character data), which is what the model uses directly. -/
abbrev Name := List Nat

/-- A `StatsMap` (`std::unordered_map<std::string, Stats, ...>`) modelled
as an association list with at most one entry per key; entry order is the
hash map's unspecified iteration order, so every property proved about a
`StatsMap` is stated via `mapFind`. -/
abbrev StatsMap := List (Name × Stats)

/-- `map.find(city)` — lookup by byte-equality of keys. -/
def mapFind : StatsMap → Name → Option Stats
  | [], _ => none
  | (k', v) :: rest, k => if k' = k then some v else mapFind rest k

/-- The per-line body of `process_segment`: `cities.find(city)`, inserting
`Stats{}` first when absent, then `update(temp)` on the entry. -/
def updateCity : StatsMap → Name → Int → StatsMap
  | [], k, t => [(k, Stats.init.update t)]
  | (k', v) :: rest, k, t =>
    if k' = k then (k', v.update t) :: rest else (k', v) :: updateCity rest k t

/-- Splitting one line at the first `';'`:
`city = line.substr(0, sep)`, `temp = get_temperature(line.substr(sep + 1))`.
When the separator is missing `find` gives `npos` and both `substr` calls
clamp to the whole line. -/
def parseLine (line : List Nat) : Name × Int :=
  match svFind 59 line 0 with
  | some sep => (line.take sep, get_temperature (line.drop (sep + 1)))
  | none => (line, get_temperature line)

/-- One iteration of the `process_segment` loop on the running map. -/
def processLine (m : StatsMap) (line : List Nat) : StatsMap :=
  updateCity m (parseLine line).1 (parseLine line).2

/-- `process_segment(data)`: scan the segment line by line, updating the
worker-local map (created empty; `reserve` only affects capacity). -/
def process_segment (seg : List Nat) : StatsMap :=
  (readLines seg 0).foldl processLine []

/-- One step of the inner `merge_results` loop: `merged[city].merge(stats)`
(`operator[]` default-constructs a `Stats{}` entry when the key is absent,
and `merge` then folds `stats` into it). -/
def mergeEntry : StatsMap → Name → Stats → StatsMap
  | [], k, st => [(k, Stats.init.merge st)]
  | (k', v) :: rest, k, st =>
    if k' = k then (k', v.merge st) :: rest else (k', v) :: mergeEntry rest k st

/-- Folding one whole source map into the accumulator map. -/
def mergeMap (acc : StatsMap) (m : StatsMap) : StatsMap :=
  m.foldl (fun a kv => mergeEntry a kv.1 kv.2) acc

/-- `merge_results(results)`: take `results.front()` as the accumulator and
fold every remaining map into it.  `front()` on an empty span is the
error branch (undefined behavior in the source), modelled as `none`. -/
def merge_results : List StatsMap → Option StatsMap
  | [] => none
  | m :: rest => some (rest.foldl mergeMap m)

/-- `process_all(segments)`: one worker per segment, each producing
`process_segment` of its own segment into its own slot of `results`
(workers share nothing mutable, so the concurrent run computes exactly
this list), then `merge_results` over the collected list. -/
def process_all (segments : List (List Nat)) : Option StatsMap :=
  merge_results (segments.map process_segment)

/-- `process_file` up to (but excluding) the final `dump_results`: segment
the file for `chunks` workers and aggregate. -/
def runFile (data : List Nat) (chunks : Nat) : Option StatsMap :=
  process_all (split_input data chunks)

/-- The sorted rebuild of the merged map,
`std::map{cities.begin(), cities.end()}`: entries ordered by
byte-lexicographic `<` on names (`std::less<std::string>` compares by
`char_traits::compare`, i.e. unsigned byte order, which is the
lexicographic order on `List Nat`). -/
def sortEntries (m : StatsMap) : List (Name × Stats) :=
  List.insertionSort (fun a b => a.1 ≤ b.1) m

/-- The three numbers printed for one entry, as exact rationals:
`min() = min_ / 10.0`, `avg() = sum_ / 10.0 / count_`,
`max() = max_ / 10.0`.  (The source prints each with `"{:.1f}"`; the
IEEE-754 formatting itself is outside the model, the values are.) -/
def statsTriple (s : Stats) : Rat × Rat × Rat :=
  ((s.min_ : Rat) / 10, (s.sum_ : Rat) / 10 / (s.count_ : Rat), (s.max_ : Rat) / 10)

/-- `dump_results(cities)`: sort the entries by name and render them in
order.  The source formats `*begin()` unconditionally; on an empty map
that dereferences `end()`, the error branch, modelled as `none`
(the spec's `EmptyInputError`). -/
def dump_results (m : StatsMap) : Option (List (Name × Rat × Rat × Rat)) :=
  match sortEntries m with
  | [] => none
  | es => some (es.map (fun e => (e.1, statsTriple e.2)))

/-- The whole observable run of `process_file`: aggregate, then report. -/
def programOutput (data : List Nat) (chunks : Nat) : Option (List (Name × Rat × Rat × Rat)) :=
  (runFile data chunks).bind dump_results

/-- Whitespace bytes skipped by `std::stoi` (`std::isspace` in the "C"
locale). -/
def isSpaceByte (b : Nat) : Bool :=
  b == 32 || b == 9 || b == 10 || b == 11 || b == 12 || b == 13

/-- ASCII decimal digit bytes. -/
def isDigitByte (b : Nat) : Bool := decide (48 ≤ b ∧ b ≤ 57)

/-- `std::stoi`: skip whitespace, accept one optional sign, then consume a
maximal non-empty digit run; with no digit it throws
`std::invalid_argument`, and outside `int` range it throws
`std::out_of_range` — both failures are `none` here (in the source either
exception escapes `number_of_threads` uncaught). -/
def stoiModel (s : List Nat) : Option Int :=
  let t := s.dropWhile isSpaceByte
  let sign : Int := match t with | 45 :: _ => -1 | _ => 1
  let u := match t with | 45 :: r => r | 43 :: r => r | _ => t
  let ds := u.takeWhile isDigitByte
  if ds.isEmpty then none
  else
    let mag : Nat := ds.foldl (fun a d => 10 * a + (d - 48)) 0
    if sign * (mag : Int) < -2147483648 ∨ 2147483647 < sign * (mag : Int) then none
    else some (sign * (mag : Int))

/-- `number_of_threads()`: `env` is the value of the `NUM_THREADS`
environment variable (`none` when unset), `hw` is
`std::thread::hardware_concurrency()`.  When the variable is set its value
goes through `std::stoi`, whose exceptions propagate out (`none`). -/
def number_of_threads (env : Option (List Nat)) (hw : Int) : Option Int :=
  match env with
  | none => some hw
  | some s => stoiModel s

def EXIT_SUCCESS : Nat := 0

def EXIT_FAILURE : Nat := 1

/-- The bytes of the default input path `"measurements.txt"`. -/
def measurementsTxt : Name :=
  [109, 101, 97, 115, 117, 114, 101, 109, 101, 110, 116, 115, 46, 116, 120, 116]

/-- The externally observable outcome of one `main` invocation. -/
structure MainRun where
  usageToStderr : Bool
  processed : Option Name
  exitCode : Nat
deriving DecidableEq

/-- `main(argc, argv)`: `argv` includes the program name, so
`argc = argv.length` and the positional arguments are `argv.drop 1`.
`ioOk file` says whether `process_file(file)` completes without throwing;
an exception escaping `main` terminates the process with a nonzero
status, modelled as `EXIT_FAILURE`. -/
def mainModel (argv : List Name) (ioOk : Name → Bool) : MainRun :=
  if argv.length > 2 then ⟨true, none, EXIT_FAILURE⟩
  else
    let file := if argv.length = 2 then argv.getD 1 [] else measurementsTxt
    if ioOk file then ⟨false, some file, EXIT_SUCCESS⟩
    else ⟨false, some file, EXIT_FAILURE⟩

/-- The decimal encoding `-?d{1,2}.d` of a scaled integer `v`
(`value × 10`), as the round-trip claim describes it: optional minus sign,
the integer part `|v| / 10` written with one or two digits, a decimal
point, and the fractional digit `|v| % 10`. -/
def encodeTemp (v : Int) : List Nat :=
  (if v < 0 then [45] else []) ++
    (if v.natAbs / 10 < 10 then [48 + v.natAbs / 10]
     else [48 + v.natAbs / 10 / 10, 48 + v.natAbs / 10 % 10]) ++
    [46, 48 + v.natAbs % 10]

/-- `Stats` values reachable from the initial state by `update` and
`merge`, indexed by the list of all scaled values folded in. -/
inductive StatsReach : Stats → List Int → Prop where
  | init : StatsReach Stats.init []
  | update (v : Int) {s : Stats} {l : List Int} :
      StatsReach s l → StatsReach (s.update v) (v :: l)
  | merge {s t : Stats} {l m : List Int} :
      StatsReach s l → StatsReach t m → StatsReach (s.merge t) (l ++ m)

/-- Lookup through the optional result of `merge_results`. -/
def findIn (om : Option StatsMap) (k : Name) : Option Stats :=
  om.bind (fun m => mapFind m k)

/-- The scaled values contributed to name `k` by a list of lines. -/
def valuesFor (k : Name) (lines : List (List Nat)) : List Int :=
  lines.filterMap (fun line => if (parseLine line).1 = k then some (parseLine line).2 else none)

/-- The statistics of a list of scaled values: `none` when no value was
ever recorded, otherwise the fold of `update` from the initial state. -/
def statsOf : List Int → Option Stats
  | [] => none
  | v :: vs => some (vs.foldl Stats.update (Stats.init.update v))

/-- The pointwise combination of per-map statistics for one name:
`none` when the name appears in no map, otherwise the `merge`-fold of all
its per-map values. -/
def combineList : List Stats → Option Stats
  | [] => none
  | v :: vs => some (vs.foldl Stats.merge v)

/-! ### Basic facts about the byte-view primitives -/

theorem byteAt_of_le (data : List Nat) (i : Nat) (h : data.length ≤ i) :
    byteAt data i = 0 := by
  simp [byteAt, List.getD, List.getElem?_eq_none h]

theorem svFind_some_spec (c : Nat) :
    ∀ (data : List Nat) (pos k : Nat), svFind c data pos = some k →
      pos ≤ k ∧ k < data.length ∧ byteAt data k = c ∧
        ∀ j, pos ≤ j → j < k → byteAt data j ≠ c := by
  intro data
  induction data with
  | nil => intro pos k h; simp [svFind] at h
  | cons b rest ih =>
    intro pos k h
    cases pos with
    | zero =>
      by_cases hb : b = c
      · simp [svFind, hb] at h
        subst h
        refine ⟨Nat.le_refl 0, by simp, by simpa [byteAt] using hb, ?_⟩
        intro j _ hj
        omega
      · simp [svFind, hb] at h
        obtain ⟨k', hk', rfl⟩ := h
        obtain ⟨h1, h2, h3, h4⟩ := ih 0 k' hk'
        refine ⟨Nat.zero_le _, by simp; omega, by simpa [byteAt, List.getD] using h3, ?_⟩
        intro j _ hj
        cases j with
        | zero => simpa [byteAt] using hb
        | succ j' =>
          have : byteAt rest j' ≠ c := h4 j' (Nat.zero_le _) (by omega)
          simpa [byteAt, List.getD] using this
    | succ p =>
      simp [svFind] at h
      obtain ⟨k', hk', rfl⟩ := h
      obtain ⟨h1, h2, h3, h4⟩ := ih p k' hk'
      refine ⟨by omega, by simp; omega, by simpa [byteAt, List.getD] using h3, ?_⟩
      intro j hj1 hj2
      cases j with
      | zero => omega
      | succ j' =>
        have : byteAt rest j' ≠ c := h4 j' (by omega) (by omega)
        simpa [byteAt, List.getD] using this

theorem svFind_none_spec (c : Nat) :
    ∀ (data : List Nat) (pos : Nat), svFind c data pos = none →
      ∀ j, pos ≤ j → j < data.length → byteAt data j ≠ c := by
  intro data
  induction data with
  | nil => intro pos _ j _ hj; simp at hj
  | cons b rest ih =>
    intro pos h j hj1 hj2
    cases pos with
    | zero =>
      by_cases hb : b = c
      · simp [svFind, hb] at h
      · simp [svFind, hb] at h
        cases j with
        | zero => simpa [byteAt] using hb
        | succ j' =>
          have := ih 0 h j' (Nat.zero_le _) (by simpa using hj2)
          simpa [byteAt, List.getD] using this
    | succ p =>
      simp [svFind] at h
      cases j with
      | zero => omega
      | succ j' =>
        have := ih p h j' (by omega) (by simpa using hj2)
        simpa [byteAt, List.getD] using this

theorem svFind_exists (c : Nat) (data : List Nat) (pos j : Nat)
    (hj : pos ≤ j) (hlt : j < data.length) (hc : byteAt data j = c) :
    ∃ k, svFind c data pos = some k ∧ k ≤ j := by
  cases h : svFind c data pos with
  | none => exact absurd hc (svFind_none_spec c data pos h j hj hlt)
  | some k =>
    refine ⟨k, rfl, ?_⟩
    by_contra hk
    exact (svFind_some_spec c data pos k h).2.2.2 j hj (by omega) hc

theorem svFind_of_ge (c : Nat) (data : List Nat) (pos : Nat)
    (h : data.length ≤ pos) : svFind c data pos = none := by
  cases hf : svFind c data pos with
  | none => rfl
  | some k =>
    have := svFind_some_spec c data pos k hf
    omega

/-! ### The fast value parser (claim C3) -/

theorem toInt16_eq_self {x : Int} (h1 : -32768 ≤ x) (h2 : x ≤ 32767) :
    toInt16 x = x := by
  unfold toInt16
  omega

theorem toInt16_bounds (x : Int) : -32768 ≤ toInt16 x ∧ toInt16 x ≤ 32767 := by
  unfold toInt16
  omega

theorem get_temperature_len3 (a b c : Nat) (ha : a ≠ 45) :
    get_temperature [a, b, c] = toInt16 (10 * (a : Int) + (c : Int) - 48 * 11) := by
  simp [get_temperature, byteAt, List.getD, ha]

theorem get_temperature_len4 (a b c d : Nat) (ha : a ≠ 45) :
    get_temperature [a, b, c, d] =
      toInt16 (100 * (a : Int) + 10 * (b : Int) + (d : Int) - 48 * 111) := by
  simp [get_temperature, byteAt, List.getD, ha]

theorem get_temperature_neg3 (a b c : Nat) :
    get_temperature [45, a, b, c] = toInt16 (-(10 * (a : Int) + (c : Int) - 48 * 11)) := by
  simp [get_temperature, byteAt, List.getD]

theorem get_temperature_neg4 (a b c d : Nat) :
    get_temperature [45, a, b, c, d] =
      toInt16 (-(100 * (a : Int) + 10 * (b : Int) + (d : Int) - 48 * 111)) := by
  simp [get_temperature, byteAt, List.getD]

/-- C3: for every scaled integer `v` in the supported range (optional sign,
one or two integer digits, one fractional digit, i.e. `-999 ≤ v ≤ 999`),
encoding `v` as a decimal byte string of the shape `-?d{1,2}.d` and
running the fast value parser `get_temperature` on it recovers exactly
`v`. -/
theorem get_temperature_roundtrip (v : Int) (h1 : -999 ≤ v) (h2 : v ≤ 999) :
    get_temperature (encodeTemp v) = v := by
  set n := v.natAbs with hndef
  have hn : n ≤ 999 := by
    rcases Int.natAbs_eq v with h | h <;> omega
  rcases Int.natAbs_eq v with hv | hv
  · have hv0 : ¬ v < 0 := by omega
    by_cases hd : n / 10 < 10
    · have he : encodeTemp v = [48 + n / 10, 46, 48 + n % 10] := by
        simp [encodeTemp, hv0, hd, ← hndef]
      rw [he, get_temperature_len3 _ _ _ (by omega)]
      rw [toInt16_eq_self (by push_cast; omega) (by push_cast; omega)]
      push_cast
      omega
    · have he : encodeTemp v = [48 + n / 10 / 10, 48 + n / 10 % 10, 46, 48 + n % 10] := by
        simp [encodeTemp, hv0, hd, ← hndef]
      rw [he, get_temperature_len4 _ _ _ _ (by omega)]
      rw [toInt16_eq_self (by push_cast; omega) (by push_cast; omega)]
      push_cast
      omega
  · by_cases hz : n = 0
    · have hv0 : v = 0 := by omega
      subst hv0
      decide
    · have hv0 : v < 0 := by omega
      by_cases hd : n / 10 < 10
      · have he : encodeTemp v = [45, 48 + n / 10, 46, 48 + n % 10] := by
          simp [encodeTemp, hv0, hd, ← hndef]
        rw [he, get_temperature_neg3]
        rw [toInt16_eq_self (by push_cast; omega) (by push_cast; omega)]
        push_cast
        omega
      · have he : encodeTemp v =
            [45, 48 + n / 10 / 10, 48 + n / 10 % 10, 46, 48 + n % 10] := by
          simp [encodeTemp, hv0, hd, ← hndef]
        rw [he, get_temperature_neg4]
        rw [toInt16_eq_self (by push_cast; omega) (by push_cast; omega)]
        push_cast
        omega

/-- C3 witness: the round trip evaluated at `v = -123` (`"-12.3"`). -/
theorem get_temperature_roundtrip_witness :
    (-999 ≤ (-123 : Int)) ∧ ((-123 : Int) ≤ 999) ∧
      get_temperature (encodeTemp (-123)) = -123 :=
  ⟨by decide, by decide, get_temperature_roundtrip (-123) (by decide) (by decide)⟩

/-! ### The Stats invariant (claim C7) -/

/-- C7: every `Stats` value reachable from the initial state by a sequence
of `update` and `merge` operations satisfies `min_ ≤ max_` whenever
`count_ > 0`, its `sum_` is the sum of all scaled values applied and its
`count_` is the number of updates applied; and the initial state is the
`+∞`/`−∞` sentinel pair with zero sum and count. -/
theorem stats_reach_invariant (s : Stats) (l : List Int) (h : StatsReach s l) :
    (0 < s.count_ → s.min_ ≤ s.max_) ∧ s.sum_ = l.sum ∧ s.count_ = l.length ∧
      Stats.init = ⟨32767, -32768, 0, 0⟩ := by
  induction h with
  | init =>
    exact ⟨by intro h; simp [Stats.init] at h, by simp [Stats.init],
      by simp [Stats.init], rfl⟩
  | @update v s l hs ih =>
    obtain ⟨ih1, ih2, ih3, _⟩ := ih
    refine ⟨?_, ?_, ?_, rfl⟩
    · intro _
      simp only [Stats.update]
      omega
    · simp only [Stats.update, List.sum_cons]
      omega
    · simp only [Stats.update, List.length_cons]
      push_cast
      omega
  | @merge s t l m hs ht ihs iht =>
    obtain ⟨is1, is2, is3, _⟩ := ihs
    obtain ⟨it1, it2, it3, _⟩ := iht
    have hls : (0 : Int) ≤ l.length := by positivity
    have hlt : (0 : Int) ≤ m.length := by positivity
    refine ⟨?_, ?_, ?_, rfl⟩
    · intro hc
      simp only [Stats.merge] at hc ⊢
      rcases lt_or_ge 0 s.count_ with hs0 | hs0
      · have := is1 hs0
        omega
      · have : 0 < t.count_ := by omega
        have := it1 this
        omega
    · simp only [Stats.merge, List.sum_append]
      omega
    · simp only [Stats.merge, List.length_append]
      push_cast
      omega

/-- C7 witness: the invariant applied to the state reached by the single
update `5` (so the `StatsReach` hypothesis is discharged concretely). -/
theorem stats_reach_invariant_witness :
    (0 < (Stats.init.update 5).count_ →
        (Stats.init.update 5).min_ ≤ (Stats.init.update 5).max_) ∧
      (Stats.init.update 5).sum_ = ([(5 : Int)]).sum ∧
      (Stats.init.update 5).count_ = ([(5 : Int)]).length ∧
      Stats.init = ⟨32767, -32768, 0, 0⟩ :=
  stats_reach_invariant _ _ (StatsReach.update 5 StatsReach.init)

/-! ### The worker-count configuration (claim C6) -/

/-- C6 counterexample: with `NUM_THREADS` set to the unparsable string
`"abc"` and 8 available execution units, `number_of_threads` does not
fall back to the hardware default — `std::stoi` throws and the exception
propagates (`none`). -/
theorem number_of_threads_unparsable_cex :
    number_of_threads (some [97, 98, 99]) 8 = none ∧
      number_of_threads (some [97, 98, 99]) 8 ≠ some 8 := by
  decide

/-- C6 (amended): if the environment variable is absent the worker count
defaults to the number of available execution units; if present and
parsable by `std::stoi` that integer is used directly; but if present and
unparsable the lookup fails (the `std::stoi` exception propagates) instead
of falling back to the default. -/
theorem number_of_threads_spec (env : Option (List Nat)) (hw : Int) :
    (env = none → number_of_threads env hw = some hw) ∧
      (∀ s v, env = some s → stoiModel s = some v →
        number_of_threads env hw = some v) ∧
      (∀ s, env = some s → stoiModel s = none →
        number_of_threads env hw = none) := by
  refine ⟨?_, ?_, ?_⟩
  · rintro rfl; rfl
  · rintro s v rfl hv
    simpa [number_of_threads] using hv
  · rintro s rfl hv
    simpa [number_of_threads] using hv

/-- C6 witness: the three branches exercised at `NUM_THREADS` unset and at
`NUM_THREADS="42"`, with 8 execution units. -/
theorem number_of_threads_spec_witness :
    number_of_threads none 8 = some 8 ∧
      number_of_threads (some [52, 50]) 8 = some 42 :=
  ⟨(number_of_threads_spec none 8).1 rfl,
    (number_of_threads_spec (some [52, 50]) 8).2.1 [52, 50] 42 rfl (by decide)⟩

/-! ### The command surface (claim C9) -/

/-- C9: with more than one positional argument (`argc > 2`) `main` prints
a usage diagnostic to the error stream and exits nonzero without
processing any file; with zero or one positional argument it proceeds on
the given path (default `measurements.txt`) and exits 0 when processing
succeeds. -/
theorem mainModel_spec (argv : List Name) (ioOk : Name → Bool) :
    (1 < (argv.drop 1).length →
      mainModel argv ioOk = ⟨true, none, EXIT_FAILURE⟩ ∧ EXIT_FAILURE ≠ 0) ∧
      ((argv.drop 1).length ≤ 1 →
        (mainModel argv ioOk).usageToStderr = false ∧
          (mainModel argv ioOk).processed =
            some ((argv.drop 1).headD measurementsTxt) ∧
          (ioOk ((argv.drop 1).headD measurementsTxt) = true →
            (mainModel argv ioOk).exitCode = EXIT_SUCCESS)) := by
  rcases argv with _ | ⟨a0, _ | ⟨a1, _ | ⟨a2, rest⟩⟩⟩
  · refine ⟨by simp, fun _ => ?_⟩
    cases hio : ioOk measurementsTxt <;>
      simp [mainModel, hio, EXIT_SUCCESS]
  · refine ⟨by simp, fun _ => ?_⟩
    cases hio : ioOk measurementsTxt <;>
      simp [mainModel, hio, EXIT_SUCCESS]
  · refine ⟨by simp, fun _ => ?_⟩
    cases hio : ioOk a1 <;>
      simp [mainModel, hio, EXIT_SUCCESS]
  · refine ⟨fun _ => ⟨?_, by simp [EXIT_FAILURE]⟩, by simp⟩
    simp [mainModel]

/-- C9 witness: both branches at concrete argument vectors
(`main a b` is a usage error; `main` alone defaults and exits 0). -/
theorem mainModel_spec_witness :
    (mainModel [[109], [97], [98]] (fun _ => true) =
        ⟨true, none, EXIT_FAILURE⟩ ∧ EXIT_FAILURE ≠ 0) ∧
      (mainModel [[109]] (fun _ => true)).exitCode = EXIT_SUCCESS :=
  ⟨(mainModel_spec [[109], [97], [98]] (fun _ => true)).1 (by decide),
    ((mainModel_spec [[109]] (fun _ => true)).2 (by decide)).2.2 rfl⟩

/-! ### Safety of merge_results' front() (claim C10) -/

/-- C10: for every worker count `N ≥ 1` the list of per-segment result
maps handed to `merge_results` has exactly `N ≥ 1` elements (one map per
segment of `split_input`), so `results.front()` is safe: in the total
embedding, where taking the front of an empty list is the `none` branch,
that branch is unreachable. -/
theorem merge_results_front_safe (data : List Nat) (N : Nat) (hN : 1 ≤ N) :
    (split_input data N).length = N ∧ runFile data N ≠ none := by
  have hlen : (split_input data N).length = N := by
    simp [split_input, split_bounds]
  refine ⟨hlen, ?_⟩
  unfold runFile process_all
  cases hs : split_input data N with
  | nil =>
    rw [hs] at hlen
    simp at hlen
    omega
  | cons a rest => simp [merge_results]

/-- C10 witness: the safety fact at the empty input with `N = 1`. -/
theorem merge_results_front_safe_witness :
    (split_input [] 1).length = 1 ∧ runFile [] 1 ≠ none :=
  merge_results_front_safe [] 1 (by decide)

/-! ### The line scanner (claim C8) -/

theorem byteAt_lt (data : List Nat) (j : Nat) (h : j < data.length) :
    byteAt data j = data[j] := by
  simp [byteAt, List.getD, List.getElem?_eq_getElem h]

theorem svFind_drop (c : Nat) :
    ∀ (data : List Nat) (pos : Nat),
      svFind c data pos = (svFind c (data.drop pos) 0).map (fun k => k + pos) := by
  intro data
  induction data with
  | nil => intro pos; simp [svFind]
  | cons b rest ih =>
    intro pos
    cases pos with
    | zero =>
      cases h : svFind c (b :: rest) 0 <;> simp [h]
    | succ p =>
      rw [svFind, ih p]
      simp only [List.drop_succ_cons]
      cases svFind c (rest.drop p) 0 <;> simp
      omega

theorem takeWhile_eq_take (c : Nat) :
    ∀ (l : List Nat) (k : Nat), svFind c l 0 = some k →
      l.takeWhile (fun b => decide (b ≠ c)) = l.take k := by
  intro l
  induction l with
  | nil => intro k h; simp [svFind] at h
  | cons b rest ih =>
    intro k h
    by_cases hb : b = c
    · simp [svFind, hb] at h
      subst h
      simp [List.takeWhile_cons, hb]
    · simp [svFind, hb] at h
      obtain ⟨k', hk', rfl⟩ := h
      simp only [List.takeWhile_cons]
      rw [if_pos (by simpa using hb)]
      rw [List.take_succ_cons]
      congr 1
      simpa using ih k' hk'

theorem dropWhile_eq_drop (c : Nat) :
    ∀ (l : List Nat) (k : Nat), svFind c l 0 = some k →
      l.dropWhile (fun b => decide (b ≠ c)) = l.drop k := by
  intro l
  induction l with
  | nil => intro k h; simp [svFind] at h
  | cons b rest ih =>
    intro k h
    by_cases hb : b = c
    · simp [svFind, hb] at h
      subst h
      simp [List.dropWhile_cons, hb]
    · simp [svFind, hb] at h
      obtain ⟨k', hk', rfl⟩ := h
      simp only [List.dropWhile_cons]
      rw [if_pos (by simpa using hb)]
      rw [List.drop_succ_cons]
      simpa using ih k' hk'

theorem readLinesAux_congr (data : List Nat) :
    ∀ (f1 f2 pos : Nat), data.length + 1 - pos ≤ f1 → data.length + 1 - pos ≤ f2 →
      readLinesAux data pos f1 = readLinesAux data pos f2 := by
  intro f1
  induction f1 with
  | zero =>
    intro f2 pos h1 h2
    have hnone : svFind 10 data pos = none := svFind_of_ge 10 data pos (by omega)
    cases f2 with
    | zero => rfl
    | succ g =>
      simp only [readLinesAux]
      rw [hnone]
  | succ a ih =>
    intro f2 pos h1 h2
    cases f2 with
    | zero =>
      have hnone : svFind 10 data pos = none := svFind_of_ge 10 data pos (by omega)
      simp only [readLinesAux]
      rw [hnone]
    | succ b =>
      simp only [readLinesAux]
      cases hf : svFind 10 data pos with
      | none => rfl
      | some nl =>
        obtain ⟨hp, hl, _, _⟩ := svFind_some_spec 10 data pos nl hf
        show svSubstr data pos (nl - pos) :: readLinesAux data (nl + 1) a
            = svSubstr data pos (nl - pos) :: readLinesAux data (nl + 1) b
        congr 1
        exact ih b (nl + 1) (by omega) (by omega)

theorem readLines_eq_none (data : List Nat) (pos : Nat)
    (h : svFind 10 data pos = none) : readLines data pos = [] := by
  unfold readLines
  cases hf : data.length + 1 - pos with
  | zero => rfl
  | succ g =>
    simp only [readLinesAux]
    rw [h]

theorem readLines_eq_some (data : List Nat) (pos nl : Nat)
    (h : svFind 10 data pos = some nl) :
    readLines data pos = svSubstr data pos (nl - pos) :: readLines data (nl + 1) := by
  obtain ⟨hp, hl, _, _⟩ := svFind_some_spec 10 data pos nl h
  unfold readLines
  rw [show data.length + 1 - pos = (data.length - pos) + 1 by omega]
  simp only [readLinesAux]
  rw [h]
  show svSubstr data pos (nl - pos) :: readLinesAux data (nl + 1) (data.length - pos)
      = svSubstr data pos (nl - pos) :: readLinesAux data (nl + 1) (data.length + 1 - (nl + 1))
  congr 1
  exact readLinesAux_congr data (data.length - pos) (data.length + 1 - (nl + 1)) (nl + 1)
    (by omega) (by omega)

theorem readLines_drop (data : List Nat) (pos : Nat) :
    readLines data pos = specLines (data.drop pos) := by
  have H : ∀ (fuel pos : Nat), data.length - pos ≤ fuel →
      readLines data pos = specLines (data.drop pos) := by
    intro fuel
    induction fuel with
    | zero =>
      intro pos hle
      have hge : data.length ≤ pos := by omega
      rw [readLines_eq_none data pos (svFind_of_ge 10 data pos hge)]
      rw [List.drop_eq_nil_of_le hge, specLines]
      simp
    | succ fuel ih =>
      intro pos hle
      cases hf : svFind 10 data pos with
      | none =>
        have hnone := svFind_none_spec 10 data pos hf
        have hany : ¬ ((data.drop pos).any (fun b => decide (b = 10)) = true) := by
          simp only [List.any_eq_true, decide_eq_true_eq]
          rintro ⟨x, hx, rfl⟩
          obtain ⟨i, hi, hxi⟩ := List.mem_iff_getElem.mp hx
          have hbyte : byteAt data (pos + i) = 10 := by
            rw [byteAt_lt data (pos + i) (by simp at hi; omega)]
            rw [← List.getElem_drop]
            · exact hxi
          exact hnone (pos + i) (by omega) (by simp at hi; omega) hbyte
        rw [readLines_eq_none data pos hf, specLines]
        simp [hany]
      | some nl =>
        obtain ⟨hpos, hlen, hbyte, _⟩ := svFind_some_spec 10 data pos nl hf
        have hl0 : svFind 10 (data.drop pos) 0 = some (nl - pos) := by
          rw [svFind_drop 10 data pos] at hf
          cases h0 : svFind 10 (data.drop pos) 0 with
          | none => rw [h0] at hf; simp at hf
          | some k =>
            rw [h0] at hf
            simp at hf
            congr 1
            omega
        have hany : (data.drop pos).any (fun b => decide (b = 10)) = true := by
          simp only [List.any_eq_true, decide_eq_true_eq]
          refine ⟨10, ?_, rfl⟩
          have hx : (data.drop pos)[nl - pos]? = some 10 := by
            rw [List.getElem?_drop]
            rw [show pos + (nl - pos) = nl by omega]
            rw [List.getElem?_eq_getElem hlen]
            have hb : data[nl] = 10 := by
              rw [← byteAt_lt data nl hlen]
              exact hbyte
            rw [hb]
          obtain ⟨hn, heq⟩ := List.getElem?_eq_some.mp hx
          exact heq ▸ List.getElem_mem hn
        rw [readLines_eq_some data pos nl hf, specLines]
        rw [dif_pos hany]
        have htake := takeWhile_eq_take 10 (data.drop pos) (nl - pos) hl0
        have hdrop := dropWhile_eq_drop 10 (data.drop pos) (nl - pos) hl0
        rw [htake, hdrop]
        congr 1
        rw [List.drop_drop, List.drop_drop]
        rw [show pos + (nl - pos + 1) = nl + 1 by omega]
        exact ih (nl + 1) (by omega)
  exact H (data.length - pos) pos (Nat.le_refl _)

theorem specLines_no_terminator (l : List Nat) :
    ∀ line ∈ specLines l, 10 ∉ line := by
  have H : ∀ (fuel : Nat) (l : List Nat), l.length ≤ fuel →
      ∀ line ∈ specLines l, 10 ∉ line := by
    intro fuel
    induction fuel with
    | zero =>
      intro l hle line hmem
      have : l = [] := List.length_eq_zero.mp (by omega)
      subst this
      rw [specLines] at hmem
      simp at hmem
    | succ fuel ih =>
      intro l hle line hmem
      rw [specLines] at hmem
      by_cases hany : l.any (fun b => decide (b = 10)) = true
      · rw [dif_pos hany] at hmem
        rcases List.mem_cons.mp hmem with rfl | hmem'
        · intro habs
          have := List.mem_takeWhile_imp habs
          simp at this
        · have hne : l.dropWhile (fun b => decide (b ≠ 10)) ≠ [] := by
            intro hnil
            rw [List.dropWhile_eq_nil_iff] at hnil
            simp only [List.any_eq_true, decide_eq_true_eq] at hany
            obtain ⟨b, hbl, rfl⟩ := hany
            have := hnil 10 hbl
            simp at this
          have hlen1 : 0 < (l.dropWhile (fun b => decide (b ≠ 10))).length :=
            List.length_pos.mpr hne
          have hlen2 := (List.dropWhile_sublist (l := l) (fun b => decide (b ≠ 10))).length_le
          exact ih _ (by simp only [List.length_drop]; omega) line hmem'
      · rw [dif_neg hany] at hmem
        simp at hmem
  exact H l.length l (Nat.le_refl _)

/-- C8: the line scanner (`Reader::getline` iterated from the start of a
segment) yields exactly the terminator-separated lines of the segment with
the terminator excluded from each yielded line, stopping as soon as no
terminator is found in the remaining range — so a final line lacking a
trailing terminator is an ignored tail, never yielded.  (`specLines` is
the spec-side description of that splitting.) -/
theorem reader_lines_spec (seg : List Nat) :
    readLines seg 0 = specLines seg ∧ ∀ line ∈ readLines seg 0, 10 ∉ line := by
  have h := readLines_drop seg 0
  rw [List.drop_zero] at h
  exact ⟨h, by rw [h]; exact specLines_no_terminator seg⟩

/-! ### The segmenter (claim C1) -/

theorem findNlP1_some (data : List Nat) (pos k : Nat)
    (h : svFind 10 data pos = some k) : findNlP1 data pos = k + 1 := by
  unfold findNlP1
  rw [h]

theorem findNlP1_none (data : List Nat) (pos : Nat)
    (h : svFind 10 data pos = none) : findNlP1 data pos = 0 := by
  unfold findNlP1
  rw [h]

theorem usub_of_le (a b : Nat) (hb : b ≤ a) (ha : a < 2 ^ 64) :
    usub a b = a - b := by
  unfold usub
  rw [Nat.mod_eq_of_lt ha, Nat.mod_eq_of_lt (lt_of_le_of_lt hb ha)]
  omega

theorem usub_of_lt (a b : Nat) (hab : a < b) (hb : b < 2 ^ 64) :
    usub a b = 2 ^ 64 - (b - a) := by
  unfold usub
  rw [Nat.mod_eq_of_lt (lt_trans hab hb), Nat.mod_eq_of_lt hb]
  omega

theorem ceil_div_pos (n N : Nat) (hn : 0 < n) (hN : 1 ≤ N) :
    1 ≤ (n + N - 1) / N := by
  rw [Nat.le_div_iff_mul_le (by omega)]
  omega

theorem ceil_div_le (n N : Nat) (hN : 1 ≤ N) : (n + N - 1) / N ≤ n := by
  have h1 : (n + N - 1) / N < n + 1 := by
    rw [Nat.div_lt_iff_lt_mul (by omega)]
    have hmul : (n + 1) * N = n * N + N := by ring
    have hnN : n ≤ n * N := Nat.le_mul_of_pos_right n (by omega)
    omega
  omega

theorem ceil_div_covers (n N : Nat) (hN : 1 ≤ N) :
    n ≤ N * ((n + N - 1) / N) := by
  have h1 := Nat.div_add_mod (n + N - 1) N
  have h2 : (n + N - 1) % N < N := Nat.mod_lt _ (by omega)
  generalize hP : N * ((n + N - 1) / N) = P at *
  omega

theorem adj_le_length (data : List Nat) (p : Nat) : adj data p ≤ data.length := by
  unfold adj
  by_cases hb : byteAt data (p - 1) = 10
  · rw [if_neg (not_not_intro hb)]
    by_contra hlt
    push_neg at hlt
    have h0 : byteAt data (p - 1) = 0 := byteAt_of_le data _ (by omega)
    omega
  · rw [if_pos hb]
    cases h : svFind 10 data p with
    | none => rw [findNlP1_none data p h]; exact Nat.zero_le _
    | some k =>
      rw [findNlP1_some data p k h]
      have := svFind_some_spec 10 data p k h
      omega

theorem adj_or (data : List Nat) (p : Nat) :
    adj data p = 0 ∨ byteAt data (adj data p - 1) = 10 := by
  unfold adj
  by_cases hb : byteAt data (p - 1) = 10
  · rw [if_neg (not_not_intro hb)]
    exact Or.inr hb
  · rw [if_pos hb]
    cases h : svFind 10 data p with
    | none => exact Or.inl (findNlP1_none data p h)
    | some k =>
      rw [findNlP1_some data p k h]
      right
      simpa using (svFind_some_spec 10 data p k h).2.2.1

theorem adj_spec (data : List Nat) (hn : 0 < data.length)
    (hterm : byteAt data (data.length - 1) = 10) (p : Nat) (hp1 : 1 ≤ p)
    (hpn : p ≤ data.length) :
    p ≤ adj data p ∧ 1 ≤ adj data p ∧ adj data p ≤ data.length ∧
      byteAt data (adj data p - 1) = 10 := by
  unfold adj
  by_cases hb : byteAt data (p - 1) = 10
  · rw [if_neg (not_not_intro hb)]
    exact ⟨le_refl _, hp1, hpn, hb⟩
  · rw [if_pos hb]
    have hpn' : p ≤ data.length - 1 := by
      by_cases hpe : p = data.length
      · rw [hpe] at hb
        exact absurd hterm hb
      · omega
    obtain ⟨k, hk, hkle⟩ :=
      svFind_exists 10 data p (data.length - 1) hpn' (by omega) hterm
    obtain ⟨hk1, hk2, hk3, _⟩ := svFind_some_spec 10 data p k hk
    rw [findNlP1_some data p k hk]
    exact ⟨by omega, by omega, by omega, by simpa using hk3⟩

theorem adj_of_gt (data : List Nat) (p : Nat) (hp : data.length < p) :
    adj data p = 0 := by
  unfold adj
  have hb : byteAt data (p - 1) = 0 := byteAt_of_le data _ (by omega)
  rw [if_pos (by simp [hb])]
  exact findNlP1_none data p (svFind_of_ge 10 data p (by omega))

theorem adj_mono (data : List Nat) (hn : 0 < data.length)
    (hterm : byteAt data (data.length - 1) = 10) (p q : Nat) (hp1 : 1 ≤ p)
    (hpq : p ≤ q) (hqn : q ≤ data.length) : adj data p ≤ adj data q := by
  rcases eq_or_lt_of_le hpq with rfl | hlt
  · exact le_refl _
  unfold adj
  by_cases hbq : byteAt data (q - 1) = 10
  · rw [if_neg (not_not_intro hbq)]
    by_cases hbp : byteAt data (p - 1) = 10
    · rw [if_neg (not_not_intro hbp)]
      exact hpq
    · rw [if_pos hbp]
      obtain ⟨k, hk, hkle⟩ := svFind_exists 10 data p (q - 1) (by omega) (by omega) hbq
      rw [findNlP1_some data p k hk]
      omega
  · rw [if_pos hbq]
    have hq1 : q ≤ data.length - 1 := by
      by_cases hqe : q = data.length
      · rw [hqe] at hbq
        exact absurd hterm hbq
      · omega
    obtain ⟨kq, hkq, hkqle⟩ :=
      svFind_exists 10 data q (data.length - 1) hq1 (by omega) hterm
    obtain ⟨hkq1, hkq2, hkq3, _⟩ := svFind_some_spec 10 data q kq hkq
    rw [findNlP1_some data q kq hkq]
    by_cases hbp : byteAt data (p - 1) = 10
    · rw [if_neg (not_not_intro hbp)]
      omega
    · rw [if_pos hbp]
      obtain ⟨kp, hkp, hkple⟩ := svFind_exists 10 data p kq (by omega) (by omega) hkq3
      rw [findNlP1_some data p kp hkp]
      omega

theorem chunkBounds_eq (data : List Nat) (N size i : Nat) (hi : i < N) :
    chunkBounds data N size i =
      ((if i = 0 then 0 else adj data (i * size)), adj data (i * size + size)) := by
  unfold chunkBounds adj
  by_cases h0 : i = 0
  · subst h0
    simp [hi]
  · have hip : 0 < i := Nat.pos_of_ne_zero h0
    simp [h0, hip, hi]

theorem boundary_zero (data : List Nat) (size : Nat) : boundary data size 0 = 0 := by
  simp [boundary]

theorem boundary_le (data : List Nat) (size i : Nat) :
    boundary data size i ≤ data.length := by
  unfold boundary
  by_cases h0 : i = 0
  · simp [h0]
  · rw [if_neg h0]
    by_cases h1 : i * size ≤ data.length
    · rw [if_pos h1]
      exact adj_le_length data _
    · rw [if_neg h1]

theorem boundary_mono (data : List Nat) (size i : Nat) (hn : 0 < data.length)
    (hterm : byteAt data (data.length - 1) = 10) (hsz : 1 ≤ size) :
    boundary data size i ≤ boundary data size (i + 1) := by
  unfold boundary
  by_cases h0 : i = 0
  · subst h0
    simp
  · rw [if_neg h0, if_neg (by omega : ¬ (i + 1 = 0))]
    by_cases h1 : (i + 1) * size ≤ data.length
    · have hle : i * size ≤ (i + 1) * size := Nat.mul_le_mul_right size (by omega)
      have h2 : i * size ≤ data.length := by omega
      rw [if_pos h2, if_pos h1]
      have hs1 : 1 ≤ i * size := by
        have := Nat.mul_le_mul (show 1 ≤ i by omega) hsz
        omega
      exact adj_mono data hn hterm _ _ hs1 hle h1
    · rw [if_neg h1]
      by_cases h2 : i * size ≤ data.length
      · rw [if_pos h2]
        exact adj_le_length data _
      · rw [if_neg h2]

theorem boundary_last (data : List Nat) (N size : Nat) (hn : 0 < data.length)
    (hterm : byteAt data (data.length - 1) = 10) (hN : 1 ≤ N)
    (hcov : data.length ≤ N * size) :
    boundary data size N = data.length := by
  unfold boundary
  rw [if_neg (by omega : ¬ (N = 0))]
  by_cases h1 : N * size ≤ data.length
  · rw [if_pos h1]
    have heq : N * size = data.length := le_antisymm h1 hcov
    rw [heq]
    unfold adj
    rw [if_neg (not_not_intro hterm)]
  · rw [if_neg h1]

theorem chunk_content (data : List Nat) (N size i : Nat) (hi : i < N)
    (hn : 0 < data.length) (hlen : data.length < 2 ^ 63)
    (hterm : byteAt data (data.length - 1) = 10)
    (hsz1 : 1 ≤ size) (hszn : size ≤ data.length) :
    svSubstr data (chunkBounds data N size i).1
        (usub (chunkBounds data N size i).2 (chunkBounds data N size i).1)
      = (data.drop (boundary data size i)).take
          (boundary data size (i + 1) - boundary data size i) := by
  rw [chunkBounds_eq data N size i hi]
  dsimp only
  rw [show i * size + size = (i + 1) * size from (Nat.succ_mul i size).symm]
  by_cases h0 : i = 0
  · subst h0
    rw [if_pos rfl, boundary_zero]
    have hb1 : boundary data size 1 = adj data size := by
      unfold boundary
      rw [if_neg one_ne_zero, if_pos (by simpa using hszn), one_mul]
    have hadj := adj_spec data hn hterm size hsz1 hszn
    rw [show (0 + 1) * size = size by ring]
    rw [usub_of_le _ _ (Nat.zero_le _) (by omega), hb1]
    simp [svSubstr]
  · rw [if_neg h0]
    have hs1 : 1 ≤ i * size := by
      have := Nat.mul_le_mul (show 1 ≤ i by omega) hsz1
      omega
  -- the tentative end boundary
    by_cases hA : (i + 1) * size ≤ data.length
    · have hle : i * size ≤ (i + 1) * size := Nat.mul_le_mul_right size (by omega)
      have hB : i * size ≤ data.length := by omega
      obtain ⟨hp1, hp2, hp3, _⟩ := adj_spec data hn hterm (i * size) hs1 hB
      have hmono := adj_mono data hn hterm (i * size) ((i + 1) * size) hs1 hle hA
      rw [usub_of_le _ _ hmono (by have := adj_le_length data ((i + 1) * size); omega)]
      have hbi : boundary data size i = adj data (i * size) := by
        unfold boundary
        rw [if_neg h0, if_pos hB]
      have hbi1 : boundary data size (i + 1) = adj data ((i + 1) * size) := by
        unfold boundary
        rw [if_neg (by omega : ¬ (i + 1 = 0)), if_pos hA]
      rw [hbi, hbi1]
      rfl
    · by_cases hB : i * size ≤ data.length
      · obtain ⟨hp1, hp2, hp3, _⟩ := adj_spec data hn hterm (i * size) hs1 hB
        have hadj0 : adj data ((i + 1) * size) = 0 := adj_of_gt data _ (by omega)
        rw [hadj0]
        rw [usub_of_lt 0 _ (by omega) (by omega)]
        have hbi : boundary data size i = adj data (i * size) := by
          unfold boundary
          rw [if_neg h0, if_pos hB]
        have hbi1 : boundary data size (i + 1) = data.length := by
          unfold boundary
          rw [if_neg (by omega : ¬ (i + 1 = 0)), if_neg hA]
        rw [hbi, hbi1]
        unfold svSubstr
        rw [List.take_of_length_le (by rw [List.length_drop]; omega)]
        rw [List.take_of_length_le (by rw [List.length_drop])]
      · have hle : i * size ≤ (i + 1) * size := Nat.mul_le_mul_right size (by omega)
        have hadjs : adj data (i * size) = 0 := adj_of_gt data _ (by omega)
        have hadje : adj data ((i + 1) * size) = 0 := adj_of_gt data _ (by omega)
        rw [hadjs, hadje]
        have hu : usub 0 0 = 0 := by
          rw [usub_of_le 0 0 (le_refl 0) (by norm_num)]
        rw [hu]
        have hbi : boundary data size i = data.length := by
          unfold boundary
          rw [if_neg h0, if_neg hB]
        have hbi1 : boundary data size (i + 1) = data.length := by
          unfold boundary
          rw [if_neg (by omega : ¬ (i + 1 = 0)), if_neg hA]
        rw [hbi, hbi1]
        simp [svSubstr]

theorem slice_append (data : List Nat) (a b c : Nat) (hab : a ≤ b) (hbc : b ≤ c) :
    (data.drop a).take (b - a) ++ (data.drop b).take (c - b)
      = (data.drop a).take (c - a) := by
  rw [show c - a = (b - a) + (c - b) by omega, List.take_add]
  congr 2
  rw [List.drop_drop]
  congr 1
  omega

theorem chain_le (g : Nat → Nat) :
    ∀ k, (∀ j, j < k → g j ≤ g (j + 1)) → g 0 ≤ g k := by
  intro k
  induction k with
  | zero => intro _; exact le_refl _
  | succ k ih =>
    intro h
    exact le_trans (ih (fun j hj => h j (by omega))) (h k (by omega))

theorem flatten_slices (data : List Nat) (g : Nat → Nat) :
    ∀ k, (∀ j, j < k → g j ≤ g (j + 1)) →
      ((List.range k).map (fun i => (data.drop (g i)).take (g (i + 1) - g i))).flatten
        = (data.drop (g 0)).take (g k - g 0) := by
  intro k
  induction k with
  | zero => intro _; simp
  | succ k ih =>
    intro h
    rw [List.range_succ, List.map_append, List.flatten_append]
    rw [ih (fun j hj => h j (by omega))]
    simp only [List.map_cons, List.map_nil, List.flatten_cons, List.flatten_nil,
      List.append_nil]
    exact slice_append data (g 0) (g k) (g (k + 1))
      (chain_le g k (fun j hj => h j (by omega))) (h k (by omega))

theorem slice_getLast (data : List Nat) (a b : Nat) (hab : a < b)
    (hb : b ≤ data.length) :
    ((data.drop a).take (b - a)).getLast? = data[b - 1]? := by
  rw [List.getLast?_eq_getElem?]
  have hlt : (List.take (b - a) (List.drop a data)).length = b - a := by
    rw [List.length_take, List.length_drop]
    omega
  rw [hlt]
  rw [List.getElem?_take, if_pos (by omega : b - a - 1 < b - a)]
  rw [List.getElem?_drop]
  congr 1
  omega

/-- C1 counterexample: on the two-byte buffer `"ab"` (no trailing line
terminator) with `N = 1`, the single segment returned by `split_input` is
empty — `find('\n', end)` fails, `npos + 1` wraps to `0` and
`substr(0, 0 - 0)` drops the whole buffer — so the concatenation of the
segments is not the buffer. -/
theorem split_input_partition_cex :
    ¬ ((split_input [97, 98] 1).flatten = [97, 98]) := by decide

/-- The partition facts about `split_input`, proved once and shared: the
C1 theorem below and the repartition-independence proofs both read off
parts of this conjunction. -/
theorem split_input_props (data : List Nat) (N : Nat) (hN : 1 ≤ N)
    (hlen : data.length < 2 ^ 63)
    (hterm : data = [] ∨ data.getLast? = some 10) :
    (split_input data N).length = N ∧
      (split_input data N).flatten = data ∧
      (∀ se ∈ split_bounds data N, se.1 = 0 ∨ byteAt data (se.1 - 1) = 10) ∧
      (∀ seg ∈ split_input data N, seg ≠ [] → seg.getLast? = some 10) ∧
      (data = [] → ∀ seg ∈ split_input data N, seg = []) := by
  have hempty : data = [] → ∀ seg ∈ split_input data N, seg = [] := by
    rintro rfl seg hseg
    simp only [split_input, List.mem_map] at hseg
    obtain ⟨se, _, rfl⟩ := hseg
    simp [svSubstr]
  have hstarts : ∀ se ∈ split_bounds data N, se.1 = 0 ∨ byteAt data (se.1 - 1) = 10 := by
    intro se hse
    simp only [split_bounds, List.mem_map, List.mem_range] at hse
    obtain ⟨i, hi, rfl⟩ := hse
    rw [chunkBounds_eq data N _ i hi]
    dsimp only
    by_cases h0 : i = 0
    · rw [if_pos h0]
      exact Or.inl rfl
    · rw [if_neg h0]
      exact adj_or data _
  have hlength : (split_input data N).length = N := by
    simp [split_input, split_bounds]
  rcases hterm with hnil | hlast
  · refine ⟨hlength, ?_, hstarts, ?_, hempty⟩
    · subst hnil
      rcases hflat : (split_input [] N).flatten with _ | ⟨b, rest⟩
      · rfl
      · exfalso
        have hb : b ∈ (split_input [] N).flatten := by rw [hflat]; exact List.mem_cons_self _ _
        obtain ⟨seg, hseg, hbseg⟩ := List.mem_flatten.mp hb
        rw [hempty rfl seg hseg] at hbseg
        simp at hbseg
    · intro seg hseg hne
      exact absurd (hempty hnil seg hseg) hne
  · have hn : 0 < data.length := by
      cases data
      · simp at hlast
      · simp
    have hterm' : byteAt data (data.length - 1) = 10 := by
      rw [List.getLast?_eq_getElem?] at hlast
      simp [byteAt, List.getD, hlast]
    set size := (data.length + N - 1) / N with hsize
    have hsz1 : 1 ≤ size := ceil_div_pos data.length N hn hN
    have hszn : size ≤ data.length := ceil_div_le data.length N hN
    have hcov : data.length ≤ N * size := ceil_div_covers data.length N hN
    have hcontent : split_input data N =
        (List.range N).map (fun i =>
          (data.drop (boundary data size i)).take
            (boundary data size (i + 1) - boundary data size i)) := by
      unfold split_input split_bounds
      rw [List.map_map]
      refine List.map_congr_left ?_
      intro i hi
      rw [List.mem_range] at hi
      exact chunk_content data N size i hi hn hlen hterm' hsz1 hszn
    have hflat : (split_input data N).flatten = data := by
      rw [hcontent]
      rw [flatten_slices data (boundary data size) N
        (fun j _ => boundary_mono data size j hn hterm' hsz1)]
      rw [boundary_zero, boundary_last data N size hn hterm' hN hcov]
      simp
    refine ⟨hlength, hflat, hstarts, ?_, hempty⟩
    intro seg hseg hne
    rw [hcontent] at hseg
    simp only [List.mem_map, List.mem_range] at hseg
    obtain ⟨i, hi, rfl⟩ := hseg
    have hble := boundary_le data size (i + 1)
    have hablt : boundary data size i < boundary data size (i + 1) := by
      by_contra hge
      push_neg at hge
      apply hne
      rw [show boundary data size (i + 1) - boundary data size i = 0 by omega]
      simp
    rw [slice_getLast data _ _ hablt hble]
    have hb1 : 0 < boundary data size (i + 1) := by omega
    have hbyte : byteAt data (boundary data size (i + 1) - 1) = 10 := by
      unfold boundary at hb1 ⊢
      rw [if_neg (by omega : ¬ (i + 1 = 0))] at hb1 ⊢
      by_cases hA : (i + 1) * size ≤ data.length
      · rw [if_pos hA] at hb1 ⊢
        rcases adj_or data ((i + 1) * size) with h0 | h10
        · omega
        · exact h10
      · rw [if_neg hA]
        exact hterm'
    rw [← hbyte]
    have hlt : boundary data size (i + 1) - 1 < data.length := by omega
    simp [byteAt, List.getD, List.getElem?_eq_getElem hlt]

/-- C1 (amended): for every worker count `N ≥ 1` and every byte buffer
that is empty or ends with the line terminator (`'\n'`-terminated input,
which is the well-formed input format; an unterminated final line is
dropped, see the counterexample), `split_input` returns exactly `N`
segments whose concatenation in order equals the whole buffer (hence the
segments' coverage ends exactly at `total_size`); each segment's start is
`0` or immediately follows a line terminator, every nonempty segment ends
with a line terminator (so no line is split across two segments); and if
`total_size = 0` all `N` segments are empty. -/
theorem split_input_partition (data : List Nat) (N : Nat) (hN : 1 ≤ N)
    (hlen : data.length < 2 ^ 63)
    (hterm : data = [] ∨ data.getLast? = some 10) :
    (split_input data N).length = N ∧
      (split_input data N).flatten = data ∧
      (∀ se ∈ split_bounds data N, se.1 = 0 ∨ byteAt data (se.1 - 1) = 10) ∧
      (∀ seg ∈ split_input data N, seg ≠ [] → seg.getLast? = some 10) ∧
      (data = [] → ∀ seg ∈ split_input data N, seg = []) :=
  split_input_props data N hN hlen hterm

/-- C1 witness: the partition properties evaluated at the terminated
buffer `"a\n"` with `N = 2`. -/
theorem split_input_partition_witness :
    (split_input [97, 10] 2).length = 2 ∧ (split_input [97, 10] 2).flatten = [97, 10] :=
  ⟨(split_input_partition [97, 10] 2 (by decide) (by decide) (Or.inr (by decide))).1,
    (split_input_partition [97, 10] 2 (by decide) (by decide) (Or.inr (by decide))).2.1⟩

/-! ### The merger (claim C4) -/

theorem mapFind_eq_none (m : StatsMap) (k : Name) (h : k ∉ m.map Prod.fst) :
    mapFind m k = none := by
  induction m with
  | nil => rfl
  | cons e rest ih =>
    obtain ⟨k', v⟩ := e
    simp only [List.map_cons, List.mem_cons] at h
    push_neg at h
    simp only [mapFind]
    rw [if_neg (fun he => h.1 he.symm)]
    exact ih h.2

theorem mapFind_some_mem (m : StatsMap) (k : Name) (v : Stats)
    (h : mapFind m k = some v) : (k, v) ∈ m := by
  induction m with
  | nil => simp [mapFind] at h
  | cons e rest ih =>
    obtain ⟨k', w⟩ := e
    simp only [mapFind] at h
    by_cases hk : k' = k
    · rw [if_pos hk] at h
      subst hk
      injection h with hv
      subst hv
      exact List.mem_cons_self _ _
    · rw [if_neg hk] at h
      exact List.mem_cons_of_mem _ (ih h)

theorem mergeEntry_find (m : StatsMap) (k : Name) (st : Stats) (k'' : Name) :
    mapFind (mergeEntry m k st) k'' =
      if k = k'' then some (((mapFind m k).getD Stats.init).merge st)
      else mapFind m k'' := by
  induction m with
  | nil =>
    by_cases hk : k = k''
    · subst hk
      simp [mergeEntry, mapFind]
    · simp [mergeEntry, mapFind, hk]
  | cons e rest ih =>
    obtain ⟨a, w⟩ := e
    by_cases hak : a = k
    · subst hak
      simp only [mergeEntry, if_pos rfl]
      by_cases hk : a = k''
      · subst hk
        simp [mapFind]
      · simp [mapFind, hk]
    · simp only [mergeEntry, if_neg hak]
      by_cases hk : a = k''
      · subst hk
        have hne : ¬ (k = a) := fun h => hak h.symm
        simp [mapFind, hne]
      · simp only [mapFind, if_neg hak, if_neg hk]
        exact ih

theorem mergeMap_find (entries : List (Name × Stats)) :
    ∀ (acc : StatsMap) (k : Name), (entries.map Prod.fst).Nodup →
      mapFind (entries.foldl (fun a kv => mergeEntry a kv.1 kv.2) acc) k =
        match mapFind entries k with
        | none => mapFind acc k
        | some v => some (((mapFind acc k).getD Stats.init).merge v) := by
  induction entries with
  | nil => intro acc k _; rfl
  | cons e rest ih =>
    intro acc k hnd
    obtain ⟨a, w⟩ := e
    simp only [List.map_cons, List.nodup_cons] at hnd
    simp only [List.foldl_cons]
    rw [ih (mergeEntry acc a w) k hnd.2]
    by_cases hak : a = k
    · subst hak
      have hrest : mapFind rest a = none := mapFind_eq_none rest a hnd.1
      have hhead : mapFind ((a, w) :: rest) a = some w := by simp [mapFind]
      rw [hrest, hhead]
      show mapFind (mergeEntry acc a w) a = some (((mapFind acc a).getD Stats.init).merge w)
      rw [mergeEntry_find acc a w a, if_pos rfl]
    · have hhead : mapFind ((a, w) :: rest) k = mapFind rest k := by
        simp [mapFind, hak]
      rw [hhead, mergeEntry_find acc a w k, if_neg hak]

theorem merge_fold_find (rest : List StatsMap) :
    ∀ (m0 : StatsMap) (k : Name), (∀ m ∈ rest, (m.map Prod.fst).Nodup) →
      mapFind (rest.foldl mergeMap m0) k =
        (rest.filterMap (fun m => mapFind m k)).foldl
          (fun acc v => some ((acc.getD Stats.init).merge v)) (mapFind m0 k) := by
  induction rest with
  | nil => intro m0 k _; rfl
  | cons m rest ih =>
    intro m0 k hnd
    simp only [List.foldl_cons]
    rw [ih (mergeMap m0 m) k (fun m' hm' => hnd m' (List.mem_cons_of_mem _ hm'))]
    cases hf : mapFind m k with
    | none =>
      have hm' : mapFind (mergeMap m0 m) k = mapFind m0 k := by
        have h2 := mergeMap_find m m0 k (hnd m (List.mem_cons_self _ _))
        rw [hf] at h2
        exact h2
      rw [@List.filterMap_cons_none _ _ (fun m => mapFind m k) m rest hf, hm']
    | some v =>
      have hm' : mapFind (mergeMap m0 m) k =
          some (((mapFind m0 k).getD Stats.init).merge v) := by
        have h2 := mergeMap_find m m0 k (hnd m (List.mem_cons_self _ _))
        rw [hf] at h2
        exact h2
      rw [@List.filterMap_cons_some _ _ (fun m => mapFind m k) m rest v hf, hm']
      simp only [List.foldl_cons]

theorem init_merge (v : Stats) (hv : v.Wf) : Stats.init.merge v = v := by
  obtain ⟨vmin, vmax, vsum, vcount⟩ := v
  obtain ⟨h1, h2⟩ := hv
  simp only [Stats.merge, Stats.init, Stats.mk.injEq] at *
  refine ⟨by omega, by omega, by omega, by omega⟩

theorem fold_step_some (vs : List Stats) :
    ∀ w : Stats,
      vs.foldl (fun acc v => some ((acc.getD Stats.init).merge v)) (some w)
        = some (vs.foldl Stats.merge w) := by
  induction vs with
  | nil => intro w; rfl
  | cons v vs ih =>
    intro w
    simp only [List.foldl_cons, Option.getD_some]
    exact ih (w.merge v)

theorem wf_of_mem_vals (maps : List StatsMap) (k : Name) (v : Stats)
    (hwf : ∀ m ∈ maps, ∀ e ∈ m, e.2.Wf)
    (hv : v ∈ maps.filterMap (fun m => mapFind m k)) : v.Wf := by
  obtain ⟨m, hm, hfind⟩ := List.mem_filterMap.mp hv
  exact hwf m hm (k, v) (mapFind_some_mem m k v hfind)

theorem combineList_nil : combineList [] = none := rfl

theorem combineList_cons (v : Stats) (vs : List Stats) :
    combineList (v :: vs) = some (vs.foldl Stats.merge v) := rfl

theorem merged_char (maps : List StatsMap) (k : Name) (hne : maps ≠ [])
    (hnd : ∀ m ∈ maps, (m.map Prod.fst).Nodup)
    (hwf : ∀ m ∈ maps, ∀ e ∈ m, e.2.Wf) :
    findIn (merge_results maps) k =
      combineList (maps.filterMap (fun m => mapFind m k)) := by
  cases maps with
  | nil => exact absurd rfl hne
  | cons m0 rest =>
    have hfind : findIn (merge_results (m0 :: rest)) k = mapFind (rest.foldl mergeMap m0) k := rfl
    rw [hfind]
    rw [merge_fold_find rest m0 k (fun m hm => hnd m (List.mem_cons_of_mem _ hm))]
    cases hf : mapFind m0 k with
    | some v =>
      rw [@List.filterMap_cons_some _ _ (fun m => mapFind m k) m0 rest v hf]
      rw [fold_step_some, combineList_cons]
    | none =>
      rw [@List.filterMap_cons_none _ _ (fun m => mapFind m k) m0 rest hf]
      cases hrest : rest.filterMap (fun m => mapFind m k) with
      | nil => rfl
      | cons v vs =>
        have hvwf : v.Wf := by
          refine wf_of_mem_vals rest k v
            (fun m hm => hwf m (List.mem_cons_of_mem _ hm)) ?_
          rw [hrest]
          exact List.mem_cons_self _ _
        simp only [List.foldl_cons, Option.getD_none]
        rw [init_merge v hvwf, fold_step_some, combineList_cons]

theorem foldl_merge_min (vs : List Stats) :
    ∀ w : Stats, (vs.foldl Stats.merge w).min_ = (vs.map Stats.min_).foldl min w.min_ := by
  induction vs with
  | nil => intro w; rfl
  | cons v vs ih =>
    intro w
    simp only [List.foldl_cons, List.map_cons]
    exact ih (w.merge v)

theorem foldl_merge_max (vs : List Stats) :
    ∀ w : Stats, (vs.foldl Stats.merge w).max_ = (vs.map Stats.max_).foldl max w.max_ := by
  induction vs with
  | nil => intro w; rfl
  | cons v vs ih =>
    intro w
    simp only [List.foldl_cons, List.map_cons]
    exact ih (w.merge v)

theorem foldl_merge_sum (vs : List Stats) :
    ∀ w : Stats, (vs.foldl Stats.merge w).sum_ = w.sum_ + (vs.map Stats.sum_).sum := by
  induction vs with
  | nil => intro w; simp
  | cons v vs ih =>
    intro w
    simp only [List.foldl_cons, List.map_cons, List.sum_cons]
    rw [ih (w.merge v)]
    simp only [Stats.merge]
    omega

theorem foldl_merge_count (vs : List Stats) :
    ∀ w : Stats, (vs.foldl Stats.merge w).count_ = w.count_ + (vs.map Stats.count_).sum := by
  induction vs with
  | nil => intro w; simp
  | cons v vs ih =>
    intro w
    simp only [List.foldl_cons, List.map_cons, List.sum_cons]
    rw [ih (w.merge v)]
    simp only [Stats.merge]
    omega

theorem merge_right_comm (b a1 a2 : Stats) :
    (b.merge a1).merge a2 = (b.merge a2).merge a1 := by
  simp only [Stats.merge, Stats.mk.injEq]
  refine ⟨by omega, by omega, by omega, by omega⟩

instance : RightCommutative Stats.merge := ⟨merge_right_comm⟩

theorem combine_perm (vals vals' : List Stats) (hperm : vals'.Perm vals)
    (hwf : ∀ v ∈ vals, v.Wf) :
    combineList vals' = combineList vals := by
  have hwf' : ∀ v ∈ vals', v.Wf := fun v hv => hwf v (hperm.mem_iff.mp hv)
  have key : ∀ (l : List Stats), (∀ v ∈ l, v.Wf) →
      combineList l = if l = [] then none else some (l.foldl Stats.merge Stats.init) := by
    intro l hl
    cases l with
    | nil => rfl
    | cons v vs =>
      rw [combineList_cons]
      simp only [List.foldl_cons]
      rw [init_merge v (hl v (List.mem_cons_self _ _))]
      simp
  rw [key vals hwf, key vals' hwf']
  by_cases hnil : vals = []
  · subst hnil
    rw [if_pos (List.Perm.eq_nil hperm), if_pos rfl]
  · have hnil' : ¬ (vals' = []) := by
      intro h
      rw [h] at hperm
      exact hnil (List.Perm.nil_eq hperm).symm
    rw [if_neg hnil, if_neg hnil']
    rw [hperm.foldl_eq Stats.init]

/-- C4: for every nonempty list of Local Aggregate Maps (with the
well-formedness the C++ types guarantee: unique keys per map and
`int16_t`-ranged `min_`/`max_`), the Merger produces an entry for exactly
the names appearing in some input map, whose `min_`/`max_` are the
min/max over that name's per-map values (written as a fold from the
`±∞` sentinels, which the `int16_t` range makes equal to the plain
min/max of the nonempty value list) and whose `sum_`/`count_` are the
sums; and merging any permutation of the list yields an identical Merged
Aggregate Map — equal `mapFind` result (all four fields) for every
name. -/
theorem merge_results_spec (maps maps' : List StatsMap) (hne : maps ≠ [])
    (hnd : ∀ m ∈ maps, (m.map Prod.fst).Nodup)
    (hwf : ∀ m ∈ maps, ∀ e ∈ m, e.2.Wf) (hperm : maps'.Perm maps) :
    (∀ k, findIn (merge_results maps) k = none ↔
        maps.filterMap (fun m => mapFind m k) = []) ∧
      (∀ k s, findIn (merge_results maps) k = some s →
        s.min_ = ((maps.filterMap (fun m => mapFind m k)).map Stats.min_).foldl min 32767 ∧
        s.max_ = ((maps.filterMap (fun m => mapFind m k)).map Stats.max_).foldl max (-32768) ∧
        s.sum_ = ((maps.filterMap (fun m => mapFind m k)).map Stats.sum_).sum ∧
        s.count_ = ((maps.filterMap (fun m => mapFind m k)).map Stats.count_).sum) ∧
      (∀ k, findIn (merge_results maps') k = findIn (merge_results maps) k) := by
  have hne' : maps' ≠ [] := by
    intro h
    rw [h] at hperm
    exact hne (List.Perm.nil_eq hperm).symm
  have hnd' : ∀ m ∈ maps', (m.map Prod.fst).Nodup :=
    fun m hm => hnd m (hperm.mem_iff.mp hm)
  have hwf' : ∀ m ∈ maps', ∀ e ∈ m, e.2.Wf :=
    fun m hm => hwf m (hperm.mem_iff.mp hm)
  refine ⟨?_, ?_, ?_⟩
  · intro k
    rw [merged_char maps k hne hnd hwf]
    cases maps.filterMap (fun m => mapFind m k) with
    | nil => simp [combineList]
    | cons v vs => simp [combineList]
  · intro k s hs
    rw [merged_char maps k hne hnd hwf] at hs
    cases hvals : maps.filterMap (fun m => mapFind m k) with
    | nil => rw [hvals] at hs; simp [combineList] at hs
    | cons v vs =>
      rw [hvals, combineList_cons] at hs
      simp only [Option.some.injEq] at hs
      subst hs
      have hvwf : v.Wf := wf_of_mem_vals maps k v hwf (by rw [hvals]; exact List.mem_cons_self _ _)
      obtain ⟨hv1, hv2⟩ := hvwf
      refine ⟨?_, ?_, ?_, ?_⟩
      · rw [foldl_merge_min]
        simp only [List.map_cons, List.foldl_cons]
        rw [min_eq_right hv1]
      · rw [foldl_merge_max]
        simp only [List.map_cons, List.foldl_cons]
        rw [max_eq_right hv2]
      · rw [foldl_merge_sum]
        simp
      · rw [foldl_merge_count]
        simp
  · intro k
    rw [merged_char maps k hne hnd hwf, merged_char maps' k hne' hnd' hwf']
    exact combine_perm _ _ (hperm.filterMap (fun m => mapFind m k))
      (fun v hv => wf_of_mem_vals maps k v hwf hv)

/-- C4 witness: the merge of the two singleton maps `{"A" ↦ s}` and
`{"A" ↦ t}` (in both orders), with the hypotheses discharged
concretely. -/
theorem merge_results_spec_witness :
    (findIn (merge_results [[([65], ⟨1, 2, 3, 1⟩)], [([65], ⟨0, 5, 7, 2⟩)]]) [65] = none ↔
      ([[([65], (⟨1, 2, 3, 1⟩ : Stats))], [([65], ⟨0, 5, 7, 2⟩)]].filterMap
        (fun m => mapFind m [65])) = []) ∧
      (findIn (merge_results [[([65], ⟨0, 5, 7, 2⟩)], [([65], ⟨1, 2, 3, 1⟩)]]) [65] =
        findIn (merge_results [[([65], ⟨1, 2, 3, 1⟩)], [([65], ⟨0, 5, 7, 2⟩)]]) [65]) := by
  have h := merge_results_spec
    [[([65], ⟨1, 2, 3, 1⟩)], [([65], ⟨0, 5, 7, 2⟩)]]
    [[([65], ⟨0, 5, 7, 2⟩)], [([65], ⟨1, 2, 3, 1⟩)]]
    (by decide) (by decide) (by decide)
    (List.Perm.swap _ _ [])
  exact ⟨h.1 [65], h.2.2 [65]⟩

/-! ### The reporter (claim C5) -/

instance : IsTotal (Name × Stats) (fun a b => a.1 ≤ b.1) :=
  ⟨fun a b => le_total a.1 b.1⟩

instance : IsTrans (Name × Stats) (fun a b => a.1 ≤ b.1) :=
  ⟨fun _ _ _ hab hbc => le_trans hab hbc⟩

/-- C5: on a merged map with zero entries the Reporter takes the error
branch (`none`, the spec's `EmptyInputError`) instead of producing output
— the source would format `*begin()` of an empty `std::map`; on a
nonempty map it renders exactly the entries of the map (one per name),
sorted by name in byte-lexicographic ascending order, each carrying
`(min, avg, max) = (min_/10, sum_/10/count_, max_/10)`.  The hypothesis
restricts the statement to maps with pairwise-distinct keys, the only
maps a `std::unordered_map` can hold. -/
theorem dump_results_spec (m : StatsMap) (hnd : (m.map Prod.fst).Nodup) :
    (dump_results m = none ↔ m = []) ∧
      ∀ es, dump_results m = some es →
        es.Perm (m.map (fun e => (e.1,
          ((e.2.min_ : Rat) / 10, (e.2.sum_ : Rat) / 10 / (e.2.count_ : Rat),
            (e.2.max_ : Rat) / 10)))) ∧
        List.Pairwise (fun a b => a.1 ≤ b.1) es := by
  have hperm : (sortEntries m).Perm m := by
    unfold sortEntries
    exact List.perm_insertionSort _ m
  have hsorted : List.Sorted (fun a b => a.1 ≤ b.1) (sortEntries m) := by
    unfold sortEntries
    exact List.sorted_insertionSort _ m
  constructor
  · cases hs : sortEntries m with
    | nil =>
      rw [hs] at hperm
      have hm : m = [] := (List.Perm.nil_eq hperm).symm
      constructor
      · intro _
        exact hm
      · intro _
        simp [dump_results, hs]
    | cons a rest =>
      constructor
      · intro habs
        rw [show dump_results m = some ((a :: rest).map
            (fun e => (e.1, statsTriple e.2))) by simp [dump_results, hs]] at habs
        cases habs
      · intro hm
        subst hm
        rw [show sortEntries ([] : StatsMap) = [] from rfl] at hs
        cases hs
  · intro es hes
    cases hs : sortEntries m with
    | nil => simp [dump_results, hs] at hes
    | cons a rest =>
      rw [show dump_results m = some ((a :: rest).map
          (fun e => (e.1, statsTriple e.2))) by simp [dump_results, hs]] at hes
      injection hes with hes'
      subst hes'
      rw [← hs]
      constructor
      · exact hperm.map (fun e => (e.1, statsTriple e.2))
      · rw [List.pairwise_map]
        exact List.Pairwise.imp (fun hab => hab) hsorted

/-- C5 witness: the error-branch characterization at a concrete singleton
map, with the distinct-keys hypothesis discharged concretely. -/
theorem dump_results_spec_witness :
    dump_results [([72], ⟨80, 120, 200, 2⟩)] = none ↔
      ([([72], (⟨80, 120, 200, 2⟩ : Stats))] : StatsMap) = [] :=
  (dump_results_spec [([72], ⟨80, 120, 200, 2⟩)] (by decide)).1

/-! ### Repartitioning independence (claim C2) -/

theorem specLines_pos (l : List Nat) (h : l.any (fun b => b = 10) = true) :
    specLines l = l.takeWhile (fun b => b ≠ 10) ::
      specLines ((l.dropWhile (fun b => b ≠ 10)).drop 1) := by
  rw [specLines]
  rw [dif_pos h]

theorem specLines_neg (l : List Nat) (h : ¬ (l.any (fun b => b = 10) = true)) :
    specLines l = [] := by
  rw [specLines]
  rw [dif_neg h]

theorem specLines_nil : specLines [] = [] :=
  specLines_neg [] (by simp)

theorem takeWhile_append_left (p : Nat → Bool) :
    ∀ (a b : List Nat), (∃ x ∈ a, ¬ p x) →
      (a ++ b).takeWhile p = a.takeWhile p := by
  intro a
  induction a with
  | nil =>
    rintro b ⟨x, hx, _⟩
    simp at hx
  | cons c a ih =>
    rintro b ⟨x, hx, hpx⟩
    simp only [List.cons_append, List.takeWhile_cons]
    by_cases hc : p c
    · rw [if_pos hc, if_pos hc]
      rcases List.mem_cons.mp hx with rfl | hx'
      · exact absurd hc hpx
      · rw [ih b ⟨x, hx', hpx⟩]
    · rw [if_neg hc, if_neg hc]

theorem dropWhile_append_left (p : Nat → Bool) :
    ∀ (a b : List Nat), (∃ x ∈ a, ¬ p x) →
      (a ++ b).dropWhile p = a.dropWhile p ++ b := by
  intro a
  induction a with
  | nil =>
    rintro b ⟨x, hx, _⟩
    simp at hx
  | cons c a ih =>
    rintro b ⟨x, hx, hpx⟩
    simp only [List.cons_append, List.dropWhile_cons]
    by_cases hc : p c
    · rw [if_pos hc, if_pos hc]
      rcases List.mem_cons.mp hx with rfl | hx'
      · exact absurd hc hpx
      · rw [ih b ⟨x, hx', hpx⟩]
    · rw [if_neg hc, if_neg hc]
      rfl

theorem specLines_append (b : List Nat) :
    ∀ (a : List Nat), (a = [] ∨ a.getLast? = some 10) →
      specLines (a ++ b) = specLines a ++ specLines b := by
  have H : ∀ (fuel : Nat) (a : List Nat), a.length ≤ fuel → a.getLast? = some 10 →
      specLines (a ++ b) = specLines a ++ specLines b := by
    intro fuel
    induction fuel with
    | zero =>
      intro a hle hlast
      have : a = [] := List.length_eq_zero.mp (by omega)
      subst this
      simp at hlast
    | succ fuel ih =>
      intro a hle hlast
      have h10 : 10 ∈ a := by
        rw [List.getLast?_eq_getElem?] at hlast
        have hlt : a.length - 1 < a.length := by
          cases a
          · simp at hlast
          · simp
        rw [List.getElem?_eq_getElem hlt] at hlast
        injection hlast with he
        exact he ▸ List.getElem_mem _
      have hany_a : a.any (fun x => decide (x = 10)) = true := by
        simp only [List.any_eq_true, decide_eq_true_eq]
        exact ⟨10, h10, rfl⟩
      have hany_ab : (a ++ b).any (fun x => decide (x = 10)) = true := by
        simp only [List.any_eq_true, decide_eq_true_eq] at hany_a ⊢
        obtain ⟨x, hx, hx10⟩ := hany_a
        exact ⟨x, List.mem_append_left b hx, hx10⟩
      rw [specLines_pos (a ++ b) hany_ab, specLines_pos a hany_a]
      rw [takeWhile_append_left _ a b ⟨10, h10, by simp⟩]
      rw [dropWhile_append_left _ a b ⟨10, h10, by simp⟩]
      simp only [List.cons_append]
      congr 1
      have hdnn : a.dropWhile (fun x => decide (x ≠ 10)) ≠ [] := by
        intro hnil
        rw [List.dropWhile_eq_nil_iff] at hnil
        have := hnil 10 h10
        simp at this
      obtain ⟨c, cs, hcs⟩ : ∃ c cs, a.dropWhile (fun x => decide (x ≠ 10)) = c :: cs := by
        cases hd : a.dropWhile (fun x => decide (x ≠ 10)) with
        | nil => exact absurd hd hdnn
        | cons c cs => exact ⟨c, cs, rfl⟩
      rw [hcs]
      simp only [List.cons_append, List.drop_succ_cons, List.drop_zero]
      by_cases hcs_nil : cs = []
      · subst hcs_nil
        simp [specLines_nil]
      · have hdw_le := (List.dropWhile_sublist (l := a) (fun x => decide (x ≠ 10))).length_le
        have hlc : (List.dropWhile (fun x => decide (x ≠ 10)) a).length = cs.length + 1 := by
          rw [hcs]
          rfl
        have hlen_cs : cs.length ≤ fuel := by omega
        have hlast_cs : cs.getLast? = some 10 := by
          have hsuffix := List.dropWhile_suffix (l := a) (fun x => decide (x ≠ 10))
          obtain ⟨t, ht⟩ := hsuffix
          rw [hcs] at ht
          have h1 : a.getLast? = cs.getLast? := by
            rw [← ht, List.getLast?_append]
            cases hl : cs.getLast? with
            | none => exact absurd (List.getLast?_eq_none_iff.mp hl) hcs_nil
            | some x =>
              have h2 : (c :: cs).getLast? = some x := by
                rw [show c :: cs = [c] ++ cs from rfl, List.getLast?_append, hl]
                rfl
              rw [h2]
              rfl
          rw [← h1, hlast]
        exact ih cs hlen_cs hlast_cs
  rintro a (rfl | hlast)
  · simp [specLines_nil]
  · exact H a.length a (Nat.le_refl _) hlast

theorem specLines_flatten (segs : List (List Nat))
    (hterm : ∀ s ∈ segs, s = [] ∨ s.getLast? = some 10) :
    specLines segs.flatten = (segs.map specLines).flatten := by
  induction segs with
  | nil => simp [specLines_nil]
  | cons s segs ih =>
    simp only [List.flatten_cons, List.map_cons]
    rw [specLines_append segs.flatten s (hterm s (List.mem_cons_self _ _))]
    rw [ih (fun t ht => hterm t (List.mem_cons_of_mem _ ht))]

theorem updateCity_find (m : StatsMap) (c : Name) (t : Int) (k : Name) :
    mapFind (updateCity m c t) k =
      if c = k then some (((mapFind m k).getD Stats.init).update t)
      else mapFind m k := by
  induction m with
  | nil =>
    by_cases hk : c = k
    · subst hk
      simp [updateCity, mapFind]
    · simp [updateCity, mapFind, hk]
  | cons e rest ih =>
    obtain ⟨a, w⟩ := e
    by_cases hac : a = c
    · subst hac
      simp only [updateCity, if_pos rfl]
      by_cases hk : a = k
      · subst hk
        simp [mapFind]
      · simp [mapFind, hk]
    · simp only [updateCity, if_neg hac]
      by_cases hk : a = k
      · subst hk
        have hne : ¬ (c = a) := fun h => hac h.symm
        simp [mapFind, hne]
      · simp only [mapFind, if_neg hac, if_neg hk]
        exact ih

theorem valuesFor_cons_some (k : Name) (line : List Nat) (lines : List (List Nat))
    (h : (parseLine line).1 = k) :
    valuesFor k (line :: lines) = (parseLine line).2 :: valuesFor k lines := by
  unfold valuesFor
  rw [List.filterMap_cons]
  simp [h]

theorem valuesFor_cons_none (k : Name) (line : List Nat) (lines : List (List Nat))
    (h : ¬ ((parseLine line).1 = k)) :
    valuesFor k (line :: lines) = valuesFor k lines := by
  unfold valuesFor
  rw [List.filterMap_cons]
  simp [h]

theorem lines_fold_find (lines : List (List Nat)) :
    ∀ (macc : StatsMap) (k : Name),
      mapFind (lines.foldl processLine macc) k =
        (valuesFor k lines).foldl
          (fun acc v => some ((acc.getD Stats.init).update v)) (mapFind macc k) := by
  induction lines with
  | nil => intro macc k; rfl
  | cons line lines ih =>
    intro macc k
    simp only [List.foldl_cons]
    rw [ih (processLine macc line) k]
    by_cases hc : (parseLine line).1 = k
    · rw [valuesFor_cons_some k line lines hc]
      simp only [List.foldl_cons]
      unfold processLine
      rw [updateCity_find macc (parseLine line).1 (parseLine line).2 k, if_pos hc]
    · rw [valuesFor_cons_none k line lines hc]
      unfold processLine
      rw [updateCity_find macc (parseLine line).1 (parseLine line).2 k, if_neg hc]

theorem update_fold_some (vs : List Int) :
    ∀ w : Stats,
      vs.foldl (fun acc v => some ((acc.getD Stats.init).update v)) (some w)
        = some (vs.foldl Stats.update w) := by
  induction vs with
  | nil => intro w; rfl
  | cons v vs ih =>
    intro w
    simp only [List.foldl_cons, Option.getD_some]
    exact ih (w.update v)

theorem process_segment_find (seg : List Nat) (k : Name) :
    mapFind (process_segment seg) k = statsOf (valuesFor k (readLines seg 0)) := by
  unfold process_segment
  rw [lines_fold_find (readLines seg 0) [] k]
  show (valuesFor k (readLines seg 0)).foldl
      (fun acc v => some ((acc.getD Stats.init).update v)) none = _
  cases hv : valuesFor k (readLines seg 0) with
  | nil => rfl
  | cons v vs =>
    simp only [List.foldl_cons, Option.getD_none]
    rw [update_fold_some]
    rfl

theorem update_wf (s : Stats) (hs : s.Wf) (v : Int) : (s.update v).Wf := by
  obtain ⟨h1, h2⟩ := hs
  constructor
  · show min s.min_ v ≤ 32767
    omega
  · show -32768 ≤ max s.max_ v
    omega

theorem init_wf : Stats.init.Wf := ⟨le_refl _, le_refl _⟩

theorem updateCity_wf (m : StatsMap) (hm : ∀ e ∈ m, e.2.Wf) (c : Name) (t : Int) :
    ∀ e ∈ updateCity m c t, e.2.Wf := by
  induction m with
  | nil =>
    intro e he
    simp only [updateCity, List.mem_singleton] at he
    subst he
    exact update_wf _ init_wf t
  | cons f rest ih =>
    obtain ⟨a, w⟩ := f
    intro e he
    by_cases hac : a = c
    · subst hac
      simp only [updateCity, if_pos rfl] at he
      rcases List.mem_cons.mp he with heq | he'
      · subst heq
        exact update_wf w (hm (a, w) (List.mem_cons_self _ _)) t
      · exact hm e (List.mem_cons_of_mem _ he')
    · simp only [updateCity, if_neg hac] at he
      rcases List.mem_cons.mp he with heq | he'
      · subst heq
        exact hm (a, w) (List.mem_cons_self _ _)
      · exact ih (fun e' he' => hm e' (List.mem_cons_of_mem _ he')) e he'

theorem fold_lines_wf (lines : List (List Nat)) :
    ∀ (macc : StatsMap), (∀ e ∈ macc, e.2.Wf) →
      ∀ e ∈ lines.foldl processLine macc, e.2.Wf := by
  induction lines with
  | nil => intro macc hm; exact hm
  | cons line lines ih =>
    intro macc hm
    simp only [List.foldl_cons]
    exact ih (processLine macc line) (updateCity_wf macc hm _ _)

theorem process_segment_wf (seg : List Nat) : ∀ e ∈ process_segment seg, e.2.Wf :=
  fold_lines_wf (readLines seg 0) [] (by intro e he; simp at he)

theorem updateCity_keys (m : StatsMap) (c : Name) (t : Int) :
    (updateCity m c t).map Prod.fst =
      if c ∈ m.map Prod.fst then m.map Prod.fst else m.map Prod.fst ++ [c] := by
  induction m with
  | nil => simp [updateCity]
  | cons f rest ih =>
    obtain ⟨a, w⟩ := f
    by_cases hac : a = c
    · subst hac
      simp [updateCity]
    · simp only [updateCity, if_neg hac, List.map_cons]
      rw [ih]
      by_cases hc : c ∈ rest.map Prod.fst
      · rw [if_pos hc, if_pos (by simp [hc])]
      · have hca : ¬ (c ∈ a :: rest.map Prod.fst) := by
          simp only [List.mem_cons]
          push_neg
          exact ⟨fun h => hac h.symm, hc⟩
        rw [if_neg hc, if_neg hca]
        simp

theorem updateCity_nodup (m : StatsMap) (c : Name) (t : Int)
    (h : (m.map Prod.fst).Nodup) : ((updateCity m c t).map Prod.fst).Nodup := by
  rw [updateCity_keys]
  by_cases hc : c ∈ m.map Prod.fst
  · rw [if_pos hc]
    exact h
  · rw [if_neg hc]
    rw [List.nodup_append]
    exact ⟨h, List.nodup_singleton c, by
      intro a ha hmem
      simp only [List.mem_singleton] at hmem
      subst hmem
      exact hc ha⟩

theorem fold_lines_nodup (lines : List (List Nat)) :
    ∀ (macc : StatsMap), (macc.map Prod.fst).Nodup →
      ((lines.foldl processLine macc).map Prod.fst).Nodup := by
  induction lines with
  | nil => intro macc hm; exact hm
  | cons line lines ih =>
    intro macc hm
    simp only [List.foldl_cons]
    exact ih (processLine macc line) (updateCity_nodup macc _ _ hm)

theorem process_segment_nodup (seg : List Nat) :
    ((process_segment seg).map Prod.fst).Nodup :=
  fold_lines_nodup (readLines seg 0) [] (by simp)

theorem mergeEntry_keys (m : StatsMap) (c : Name) (st : Stats) :
    (mergeEntry m c st).map Prod.fst =
      if c ∈ m.map Prod.fst then m.map Prod.fst else m.map Prod.fst ++ [c] := by
  induction m with
  | nil => simp [mergeEntry]
  | cons f rest ih =>
    obtain ⟨a, w⟩ := f
    by_cases hac : a = c
    · subst hac
      simp [mergeEntry]
    · simp only [mergeEntry, if_neg hac, List.map_cons]
      rw [ih]
      by_cases hc : c ∈ rest.map Prod.fst
      · rw [if_pos hc, if_pos (by simp [hc])]
      · have hca : ¬ (c ∈ a :: rest.map Prod.fst) := by
          simp only [List.mem_cons]
          push_neg
          exact ⟨fun h => hac h.symm, hc⟩
        rw [if_neg hc, if_neg hca]
        simp

theorem mergeEntry_nodup (m : StatsMap) (c : Name) (st : Stats)
    (h : (m.map Prod.fst).Nodup) : ((mergeEntry m c st).map Prod.fst).Nodup := by
  rw [mergeEntry_keys]
  by_cases hc : c ∈ m.map Prod.fst
  · rw [if_pos hc]
    exact h
  · rw [if_neg hc]
    rw [List.nodup_append]
    exact ⟨h, List.nodup_singleton c, by
      intro a ha hmem
      simp only [List.mem_singleton] at hmem
      subst hmem
      exact hc ha⟩

theorem mergeMap_nodup (entries : List (Name × Stats)) :
    ∀ (acc : StatsMap), (acc.map Prod.fst).Nodup →
      ((entries.foldl (fun a kv => mergeEntry a kv.1 kv.2) acc).map Prod.fst).Nodup := by
  induction entries with
  | nil => intro acc h; exact h
  | cons e rest ih =>
    intro acc h
    simp only [List.foldl_cons]
    exact ih (mergeEntry acc e.1 e.2) (mergeEntry_nodup acc e.1 e.2 h)

theorem merge_results_nodup (maps : List StatsMap) (M : StatsMap)
    (hmaps : ∀ m ∈ maps, (m.map Prod.fst).Nodup)
    (h : merge_results maps = some M) : (M.map Prod.fst).Nodup := by
  cases maps with
  | nil => simp [merge_results] at h
  | cons m0 rest =>
    simp only [merge_results, Option.some.injEq] at h
    subst h
    have key : ∀ (rs : List StatsMap) (acc : StatsMap), (acc.map Prod.fst).Nodup →
        ((rs.foldl mergeMap acc).map Prod.fst).Nodup := by
      intro rs
      induction rs with
      | nil => intro acc hacc; exact hacc
      | cons r rs ih =>
        intro acc hacc
        simp only [List.foldl_cons]
        exact ih (mergeMap acc r) (mergeMap_nodup r acc hacc)
    exact key rest m0 (hmaps m0 (List.mem_cons_self _ _))

theorem get_temperature_range (value : List Nat) :
    -32768 ≤ get_temperature value ∧ get_temperature value ≤ 32767 := by
  unfold get_temperature
  dsimp only
  split_ifs <;> exact toInt16_bounds _

theorem parseLine_some_eq (line : List Nat) (sep : Nat)
    (h : svFind 59 line 0 = some sep) :
    parseLine line = (line.take sep, get_temperature (line.drop (sep + 1))) := by
  unfold parseLine
  rw [h]

theorem parseLine_none_eq (line : List Nat) (h : svFind 59 line 0 = none) :
    parseLine line = (line, get_temperature line) := by
  unfold parseLine
  rw [h]

theorem parseLine_range (line : List Nat) :
    -32768 ≤ (parseLine line).2 ∧ (parseLine line).2 ≤ 32767 := by
  cases hf : svFind 59 line 0 with
  | none =>
    rw [parseLine_none_eq line hf]
    exact get_temperature_range line
  | some sep =>
    rw [parseLine_some_eq line sep hf]
    exact get_temperature_range _

theorem valuesFor_range (k : Name) (lines : List (List Nat)) :
    ∀ v ∈ valuesFor k lines, -32768 ≤ v ∧ v ≤ 32767 := by
  intro v hv
  unfold valuesFor at hv
  obtain ⟨line, _, hline⟩ := List.mem_filterMap.mp hv
  by_cases hc : (parseLine line).1 = k
  · rw [if_pos hc] at hline
    injection hline with he
    subst he
    exact parseLine_range line
  · rw [if_neg hc] at hline
    cases hline

theorem init_update (v : Int) (h1 : -32768 ≤ v) (h2 : v ≤ 32767) :
    Stats.init.update v = ⟨v, v, v, 1⟩ := by
  simp only [Stats.update, Stats.init, Stats.mk.injEq]
  refine ⟨by omega, by omega, by omega, by omega⟩

theorem merge_unit (w : Stats) (v : Int) : w.merge ⟨v, v, v, 1⟩ = w.update v := rfl

theorem merge_update_assoc (w u : Stats) (v : Int) :
    w.merge (u.update v) = (w.merge u).update v := by
  simp only [Stats.merge, Stats.update, Stats.mk.injEq]
  refine ⟨by omega, by omega, by omega, by omega⟩

theorem merge_foldl_update (ws : List Int) :
    ∀ (w u : Stats), w.merge (ws.foldl Stats.update u) = ws.foldl Stats.update (w.merge u) := by
  induction ws with
  | nil => intro w u; rfl
  | cons v ws ih =>
    intro w u
    simp only [List.foldl_cons]
    rw [ih w (u.update v), merge_update_assoc]

theorem statsOf_cons (v : Int) (vs : List Int) :
    statsOf (v :: vs) = some (vs.foldl Stats.update (Stats.init.update v)) := rfl

theorem fold_merge_eq_fold_update (vss : List (List Int)) :
    ∀ (S : Stats), (∀ vs ∈ vss, ∀ v ∈ vs, -32768 ≤ v ∧ v ≤ 32767) →
      (vss.filterMap statsOf).foldl Stats.merge S = vss.flatten.foldl Stats.update S := by
  induction vss with
  | nil => intro S _; rfl
  | cons ws vss ih =>
    intro S hr
    cases ws with
    | nil =>
      rw [@List.filterMap_cons_none _ _ statsOf [] vss rfl]
      simp only [List.flatten_cons, List.nil_append]
      exact ih S (fun vs hvs => hr vs (List.mem_cons_of_mem _ hvs))
    | cons w0 ws' =>
      rw [@List.filterMap_cons_some _ _ statsOf (w0 :: ws') vss _ (statsOf_cons w0 ws')]
      simp only [List.foldl_cons, List.flatten_cons]
      rw [ih _ (fun vs hvs => hr vs (List.mem_cons_of_mem _ hvs))]
      rw [List.foldl_append]
      congr 1
      have hw0 := hr (w0 :: ws') (List.mem_cons_self _ _) w0 (List.mem_cons_self _ _)
      rw [merge_foldl_update ws' S (Stats.init.update w0)]
      rw [init_update w0 hw0.1 hw0.2, merge_unit]
      simp only [List.foldl_cons]

theorem combine_filterMap_statsOf (vss : List (List Int))
    (hr : ∀ vs ∈ vss, ∀ v ∈ vs, -32768 ≤ v ∧ v ≤ 32767) :
    combineList (vss.filterMap statsOf) = statsOf vss.flatten := by
  induction vss with
  | nil => rfl
  | cons ws vss ih =>
    cases ws with
    | nil =>
      rw [@List.filterMap_cons_none _ _ statsOf [] vss rfl]
      simp only [List.flatten_cons, List.nil_append]
      exact ih (fun vs hvs => hr vs (List.mem_cons_of_mem _ hvs))
    | cons w0 ws' =>
      rw [@List.filterMap_cons_some _ _ statsOf (w0 :: ws') vss _ (statsOf_cons w0 ws')]
      rw [combineList_cons]
      rw [fold_merge_eq_fold_update vss _ (fun vs hvs => hr vs (List.mem_cons_of_mem _ hvs))]
      simp only [List.flatten_cons, List.cons_append]
      rw [statsOf_cons]
      congr 1
      rw [List.foldl_append]

theorem runFile_find (data : List Nat) (N : Nat) (hN : 1 ≤ N)
    (hlen : data.length < 2 ^ 63)
    (hterm : data = [] ∨ data.getLast? = some 10) (k : Name) :
    findIn (runFile data N) k = statsOf (valuesFor k (specLines data)) := by
  obtain ⟨hlen', hflat, _, hsegterm, _⟩ := split_input_props data N hN hlen hterm
  have hne : (split_input data N).map process_segment ≠ [] := by
    intro h
    have h0 := congrArg List.length h
    rw [List.length_map, hlen'] at h0
    simp at h0
    omega
  have hnd : ∀ m ∈ (split_input data N).map process_segment, (m.map Prod.fst).Nodup := by
    intro m hm
    obtain ⟨seg, _, rfl⟩ := List.mem_map.mp hm
    exact process_segment_nodup seg
  have hwf : ∀ m ∈ (split_input data N).map process_segment, ∀ e ∈ m, e.2.Wf := by
    intro m hm
    obtain ⟨seg, _, rfl⟩ := List.mem_map.mp hm
    exact process_segment_wf seg
  have h1 : findIn (runFile data N) k =
      combineList (((split_input data N).map process_segment).filterMap
        (fun m => mapFind m k)) := by
    unfold runFile process_all
    exact merged_char _ k hne hnd hwf
  rw [h1, List.filterMap_map]
  have h2 : ((fun m => mapFind m k) ∘ process_segment)
      = statsOf ∘ (fun seg => valuesFor k (specLines seg)) := by
    funext seg
    simp only [Function.comp]
    rw [process_segment_find seg k, readLines_drop seg 0, List.drop_zero]
  rw [h2, ← List.filterMap_map]
  rw [combine_filterMap_statsOf _ (by
    intro vs hvs v hv
    obtain ⟨seg, _, rfl⟩ := List.mem_map.mp hvs
    exact valuesFor_range k (specLines seg) v hv)]
  congr 1
  have hsegterm' : ∀ s ∈ split_input data N, s = [] ∨ s.getLast? = some 10 := by
    intro s hs
    by_cases hnil : s = []
    · exact Or.inl hnil
    · exact Or.inr (hsegterm s hs hnil)
  have h3 : ((split_input data N).map (fun seg => valuesFor k (specLines seg))).flatten
      = valuesFor k (((split_input data N).map specLines).flatten) := by
    unfold valuesFor
    rw [List.filterMap_flatten]
    rw [List.map_map]
    rfl
  rw [h3, ← specLines_flatten (split_input data N) hsegterm', hflat]

theorem mapFind_append_none (l r : StatsMap) (k : Name) (h : mapFind l k = none) :
    mapFind (l ++ r) k = mapFind r k := by
  induction l with
  | nil => rfl
  | cons e rest ih =>
    obtain ⟨a, w⟩ := e
    simp only [mapFind] at h ⊢
    by_cases hak : a = k
    · rw [if_pos hak] at h
      cases h
    · rw [if_neg hak] at h
      simp only [List.cons_append, mapFind, if_neg hak]
      exact ih h

theorem mapFind_append_some (l r : StatsMap) (k : Name) (v : Stats)
    (h : mapFind l k = some v) : mapFind (l ++ r) k = some v := by
  induction l with
  | nil => cases h
  | cons e rest ih =>
    obtain ⟨a, w⟩ := e
    simp only [mapFind] at h ⊢
    by_cases hak : a = k
    · rw [if_pos hak] at h
      simp only [List.cons_append, mapFind, if_pos hak]
      exact h
    · rw [if_neg hak] at h
      simp only [List.cons_append, mapFind, if_neg hak]
      exact ih h

theorem find_split (m : StatsMap) (k : Name) (v : Stats) (h : mapFind m k = some v) :
    ∃ l r, m = l ++ (k, v) :: r ∧ k ∉ l.map Prod.fst := by
  induction m with
  | nil => cases h
  | cons e rest ih =>
    obtain ⟨a, w⟩ := e
    by_cases hak : a = k
    · subst hak
      have hw : some w = some v := by
        rw [← h]
        simp [mapFind]
      injection hw with hw
      subst hw
      exact ⟨[], rest, rfl, by simp⟩
    · simp only [mapFind, if_neg hak] at h
      obtain ⟨l, r, rfl, hkl⟩ := ih h
      refine ⟨(a, w) :: l, r, rfl, ?_⟩
      simp only [List.map_cons, List.mem_cons]
      push_neg
      exact ⟨fun he => hak he.symm, hkl⟩

theorem perm_of_find_eq :
    ∀ (m1 m2 : StatsMap), (m1.map Prod.fst).Nodup → (m2.map Prod.fst).Nodup →
      (∀ k, mapFind m1 k = mapFind m2 k) → m1.Perm m2 := by
  intro m1
  induction m1 with
  | nil =>
    intro m2 _ _ hfind
    cases m2 with
    | nil => exact List.Perm.refl _
    | cons e rest =>
      obtain ⟨k, v⟩ := e
      have := hfind k
      simp [mapFind] at this
  | cons e rest ih =>
    intro m2 hnd1 hnd2 hfind
    obtain ⟨k, v⟩ := e
    have hk2 : mapFind m2 k = some v := by
      rw [← hfind k]
      simp [mapFind]
    obtain ⟨l, r, rfl, hkl⟩ := find_split m2 k v hk2
    have hperm2 : (l ++ (k, v) :: r).Perm ((k, v) :: (l ++ r)) := List.perm_middle
    refine List.Perm.trans (List.Perm.cons _ ?_) hperm2.symm
    simp only [List.map_cons, List.nodup_cons] at hnd1
    have hnd2' : ((l ++ r).map Prod.fst).Nodup ∧ k ∉ (l ++ r).map Prod.fst := by
      rw [List.map_append] at hnd2 ⊢
      rw [List.map_cons] at hnd2
      have := List.nodup_middle.mp hnd2
      rw [List.nodup_cons] at this
      exact ⟨this.2, this.1⟩
    have hkr : k ∉ r.map Prod.fst := by
      intro hr
      exact hnd2'.2 (by rw [List.map_append]; exact List.mem_append_right _ hr)
    apply ih (l ++ r) hnd1.2 hnd2'.1
    intro k'
    by_cases hk' : k' = k
    · subst hk'
      rw [mapFind_eq_none rest k' hnd1.1]
      rw [mapFind_append_none l r k' (mapFind_eq_none l k' hkl)]
      rw [mapFind_eq_none r k' hkr]
    · have hkk' : ¬ (k = k') := fun h => hk' h.symm
      have hstep := hfind k'
      rw [show mapFind ((k, v) :: rest) k' = mapFind rest k' from by
        simp [mapFind, hkk']] at hstep
      rw [hstep]
      cases hfl : mapFind l k' with
      | some w =>
        rw [mapFind_append_some l _ k' w hfl, mapFind_append_some l _ k' w hfl]
      | none =>
        rw [mapFind_append_none l _ k' hfl, mapFind_append_none l _ k' hfl]
        simp [mapFind, hkk']

theorem sortEntries_eq_of_find_eq (m1 m2 : StatsMap)
    (hnd1 : (m1.map Prod.fst).Nodup) (hnd2 : (m2.map Prod.fst).Nodup)
    (hfind : ∀ k, mapFind m1 k = mapFind m2 k) :
    sortEntries m1 = sortEntries m2 := by
  haveI : IsAntisymm (Name × Stats) (fun a b => a.1 < b.1) :=
    ⟨fun a b h1 h2 => absurd (lt_trans h1 h2) (lt_irrefl _)⟩
  have hp12 : m1.Perm m2 := perm_of_find_eq m1 m2 hnd1 hnd2 hfind
  have hsort1 : (sortEntries m1).Perm m1 := by
    unfold sortEntries
    exact List.perm_insertionSort _ m1
  have hsort2 : (sortEntries m2).Perm m2 := by
    unfold sortEntries
    exact List.perm_insertionSort _ m2
  have hperm : (sortEntries m1).Perm (sortEntries m2) :=
    hsort1.trans (hp12.trans hsort2.symm)
  have strict : ∀ (m : StatsMap), (m.map Prod.fst).Nodup →
      List.Pairwise (fun a b : Name × Stats => a.1 < b.1) (sortEntries m) := by
    intro m hnd
    have hsorted : List.Sorted (fun a b : Name × Stats => a.1 ≤ b.1) (sortEntries m) := by
      unfold sortEntries
      exact List.sorted_insertionSort _ m
    have hpm : (sortEntries m).Perm m := by
      unfold sortEntries
      exact List.perm_insertionSort _ m
    have hndk : ((sortEntries m).map Prod.fst).Nodup :=
      ((hpm.map Prod.fst).nodup_iff).mpr hnd
    have hne : List.Pairwise (fun a b : Name × Stats => a.1 ≠ b.1) (sortEntries m) :=
      List.pairwise_map.mp hndk
    exact (hsorted.and hne).imp (fun hab => lt_of_le_of_ne hab.1 hab.2)
  exact List.eq_of_perm_of_sorted hperm (strict m1 hnd1) (strict m2 hnd2)

theorem dump_eq_of_find_eq (m1 m2 : StatsMap)
    (hnd1 : (m1.map Prod.fst).Nodup) (hnd2 : (m2.map Prod.fst).Nodup)
    (hfind : ∀ k, mapFind m1 k = mapFind m2 k) :
    dump_results m1 = dump_results m2 := by
  unfold dump_results
  rw [sortEntries_eq_of_find_eq m1 m2 hnd1 hnd2 hfind]

theorem runFile_some (data : List Nat) (N : Nat) (hN : 1 ≤ N) :
    ∃ M, runFile data N = some M ∧ (M.map Prod.fst).Nodup := by
  have hlen : (split_input data N).length = N := by
    simp [split_input, split_bounds]
  cases hs : split_input data N with
  | nil =>
    rw [hs] at hlen
    simp at hlen
    omega
  | cons s rest =>
    have hrun : runFile data N =
        some ((rest.map process_segment).foldl mergeMap (process_segment s)) := by
      unfold runFile process_all
      rw [hs]
      rfl
    refine ⟨_, hrun, ?_⟩
    have hnd : ∀ m ∈ (s :: rest).map process_segment, (m.map Prod.fst).Nodup := by
      intro m hm
      obtain ⟨seg, _, rfl⟩ := List.mem_map.mp hm
      exact process_segment_nodup seg
    exact merge_results_nodup ((s :: rest).map process_segment) _ hnd rfl

/-- C2 counterexample: on the input `"a;1.0\nbb;2.0"` — whose final line
lacks the terminator — running with `N = 1` workers and with `N = 8`
workers produces different Statistics for the name `"a"`: the `N = 1` run
drops the entire buffer (the single chunk's `find('\n', end)` fails and
`npos + 1` wraps to `0`), while the `N = 8` run keeps the first,
terminated line. -/
theorem run_repartition_cex :
    findIn (runFile [97, 59, 49, 46, 48, 10, 98, 98, 59, 50, 46, 48] 1) [97] ≠
      findIn (runFile [97, 59, 49, 46, 48, 10, 98, 98, 59, 50, 46, 48] 8) [97] := by
  decide

/-- C2 (amended): for every input buffer that is empty or ends with the
line terminator (well-formed input), processing with `N = 1` and with
`N = 8` workers produces identical final Statistics for every name (all
four fields, via `mapFind`) and identical rendered output (the sorted
report, byte-identical once formatted, since the rendering is a
deterministic function of the sorted entries).  For input whose final
line lacks the terminator the equivalence fails, see the
counterexample. -/
theorem run_repartition (data : List Nat) (hlen : data.length < 2 ^ 63)
    (hterm : data = [] ∨ data.getLast? = some 10) :
    (∀ k, findIn (runFile data 8) k = findIn (runFile data 1) k) ∧
      programOutput data 8 = programOutput data 1 := by
  have hfind : ∀ k, findIn (runFile data 8) k = findIn (runFile data 1) k := by
    intro k
    rw [runFile_find data 8 (by omega) hlen hterm k,
      runFile_find data 1 (by omega) hlen hterm k]
  refine ⟨hfind, ?_⟩
  obtain ⟨M8, hM8, hnd8⟩ := runFile_some data 8 (by omega)
  obtain ⟨M1, hM1, hnd1⟩ := runFile_some data 1 (by omega)
  unfold programOutput
  rw [hM8, hM1]
  show dump_results M8 = dump_results M1
  apply dump_eq_of_find_eq M8 M1 hnd8 hnd1
  intro k
  have hk := hfind k
  rw [hM8, hM1] at hk
  exact hk

/-- C2 witness: the equivalence applied to the terminated input
`"a;1.0\n"`, with both hypotheses discharged concretely and the
per-name part instantiated at the name `"a"`. -/
theorem run_repartition_witness :
    findIn (runFile [97, 59, 49, 46, 48, 10] 8) [97] =
        findIn (runFile [97, 59, 49, 46, 48, 10] 1) [97] ∧
      programOutput [97, 59, 49, 46, 48, 10] 8 = programOutput [97, 59, 49, 46, 48, 10] 1 :=
  ⟨(run_repartition [97, 59, 49, 46, 48, 10] (by decide) (Or.inr (by decide))).1 [97],
    (run_repartition [97, 59, 49, 46, 48, 10] (by decide) (Or.inr (by decide))).2⟩

end OneBRC
